import Mathlib

/-!
Verification of the virtual-memory simulation framework (TLB, page-table
walker, page-table driver, physical-page allocator) against its design
specification. The Lean definitions below are shallow embeddings of the
C++ sources:
  * `TLB.*`        — the instance-scoped TLB class (tlb.h / its .cc file)
  * `GTLB.*`       — the TLB sketch of the pagetables-base-2024 mmu.cc that
                     keeps its entry array, LRU list and current ASID in
                     module-global (`static`) variables shared by instances
  * `PhysMemManager.*` — the hole-list allocator (pagetables-base-2024
                     os/physmemmanager.cc)
  * `BitmapPMM.*`  — the bitmap allocator (os/physmemmanager.cc)
  * `AArch64MMUDriver.*` / `AArch64MMU.*` — the 4-level page-table driver
                     (aarch64 driver.cc) and hardware walker (aarch64 mmu.cc)
Machine integers are modelled as `Nat` with explicit truncation (`% 2 ^ 34`
for the 34-bit physicalPageNum bitfield, `% 2 ^ 48` for address masking).
-/

/-! ## Instance-scoped TLB (tlb.h)

`std::list<TLBEntry> entries` is modelled as a Lean list with the MRU entry
at the head; the `std::unordered_map` `cache` is a derived index keyed by
virtual address (the class keeps it exactly in sync with the list), so
`cache.find(v)` is modelled as `find?` on the list by virtual address. -/

structure TLBEntry where
  virtualAddress : Nat
  physicalAddress : Nat
  asid : Nat
deriving DecidableEq, Repr

/-- Lookup of the cache index by virtual address: the first (and, by the
uniqueness invariant, only) entry with the given virtual address. -/
def TLB.findV (v : Nat) (s : List TLBEntry) : Option TLBEntry :=
  s.find? (fun e => e.virtualAddress == v)

/-- Erasure of the cache-indexed entry for a virtual address (the `erase`
performed through the `cache` iterator); removes the first match, and is the
identity when no entry for `v` exists. -/
def TLB.eraseV (v : Nat) (s : List TLBEntry) : List TLBEntry :=
  s.eraseP (fun e => e.virtualAddress == v)

/-- Models `TLB::addEntry` (tlb .cc): erase an existing entry for the same virtual
address, evict the LRU (back) entry when the list is full, push the new
entry at the MRU (front) position. `n` is the capacity `numEntries`. -/
def TLB.addEntry (n : Nat) (s : List TLBEntry) (v p a : Nat) : List TLBEntry :=
  let s1 := TLB.eraseV v s
  let s2 := if s1.length = n then s1.dropLast else s1
  ⟨v, p, a⟩ :: s2

/-- Result part of `TLB::lookup`: the physical address when the cache holds
an entry for `v` whose ASID matches, `none` otherwise. -/
def TLB.lookupRes (s : List TLBEntry) (v a : Nat) : Option Nat :=
  match TLB.findV v s with
  | some e => if e.asid = a then some e.physicalAddress else none
  | none => none

/-- State part of `TLB::lookup`: on a hit the entry is spliced to the MRU
(front) position, otherwise the list is unchanged. -/
def TLB.lookupState (s : List TLBEntry) (v a : Nat) : List TLBEntry :=
  match TLB.findV v s with
  | some e => if e.asid = a then e :: TLB.eraseV v s else s
  | none => s

/-- Operations of the TLB interface (addEntry / lookup / flush / flushASID). -/
inductive TLBOp where
  | add (v p asid : Nat)
  | look (v asid : Nat)
  | flushAll
  | flushASID (asid : Nat)
deriving DecidableEq, Repr

/-- One TLB operation acting on the entry list (`flush` clears the list and
the cache; `flushASID` erases every entry whose ASID matches). -/
def TLB.step (n : Nat) (s : List TLBEntry) : TLBOp → List TLBEntry
  | .add v p a => TLB.addEntry n s v p a
  | .look v a => TLB.lookupState s v a
  | .flushAll => []
  | .flushASID a => s.filter (fun e => e.asid != a)

/-- Replay a sequence of TLB operations from a given entry list. -/
def TLB.runFrom (n : Nat) (s : List TLBEntry) (ops : List TLBOp) : List TLBEntry :=
  ops.foldl (TLB.step n) s

/-- Replay a sequence of TLB operations from the empty TLB. -/
def TLB.run (n : Nat) (ops : List TLBOp) : List TLBEntry :=
  TLB.runFrom n [] ops

/-- Whether an operation supersedes a live entry `(v, ·, asid)`: a later add
on the same virtual page, a full flush, or a flush of the entry's ASID. -/
def TLB.supersedes (v asid : Nat) : TLBOp → Bool
  | .add v' _ _ => v' == v
  | .look _ _ => false
  | .flushAll => true
  | .flushASID a => a == asid

/-- No operation of the trace supersedes a live entry `(v, ·, asid)`. -/
def TLB.noSupersede (v asid : Nat) (t : List TLBOp) : Bool :=
  t.all (fun op => ! TLB.supersedes v asid op)

/-- Whether an operation is an add on virtual address `v`. -/
def TLB.isAddOn (v : Nat) : TLBOp → Bool
  | .add v' _ _ => v' == v
  | _ => false

/-- The trace contains an add on some virtual address different from `v`
(the only possible cause of an LRU eviction of `v`'s entry). -/
def TLB.hasOtherAdd (v : Nat) (t : List TLBOp) : Bool :=
  t.any (fun op => match op with
    | .add v' _ _ => v' != v
    | _ => false)

/-- Uniqueness of virtual addresses across the entry list. -/
def TLB.uniqV (s : List TLBEntry) : Prop :=
  List.Pairwise (fun a b => a.virtualAddress ≠ b.virtualAddress) s

/-! ## Global-state TLB sketch (pagetables-base-2024 mmu.cc)

This TLB keeps `tlbEntries`, `lruOrder`, `tlbInitialized` and `currentASID`
in module-global `static` variables; only the statistics counters are
instance members. The global state is made explicit as `GTLBGlobal` and is
threaded through the operations of every instance. `lruMap` is a derived
index of `lruOrder` and is not modelled separately. -/

structure GTLBEntry where
  vPage : Nat
  pPage : Nat
  asid : Nat
  valid : Bool
deriving DecidableEq, Repr

/-- Default-constructed `TLBEntry` of the sketch (all zero, invalid). -/
def GTLB.emptyEntry : GTLBEntry := ⟨0, 0, 0, false⟩

/-- The module-global (`static`) state shared by every TLB instance. -/
structure GTLBGlobal where
  tlbEntries : List GTLBEntry
  lruOrder : List Nat
  tlbInitialized : Bool
  currentASID : Nat
deriving Repr

/-- Fresh program state: the globals before any TLB call. -/
def GTLB.freshGlobal : GTLBGlobal :=
  { tlbEntries := [], lruOrder := [], tlbInitialized := false, currentASID := 0 }

/-- Per-instance state: capacity and the instance-member statistics. -/
structure GTLBInst where
  nEntries : Nat
  nLookups : Nat
  nHits : Nat
  nEvictions : Nat
  nFlush : Nat
  nFlushEvictions : Nat
deriving DecidableEq, Repr

/-- A freshly constructed instance of the sketch with capacity `n`. -/
def GTLB.mkInst (n : Nat) : GTLBInst :=
  { nEntries := n, nLookups := 0, nHits := 0, nEvictions := 0, nFlush := 0,
    nFlushEvictions := 0 }

/-- Linear scan of `tlbEntries[0 .. nEntries)` for a valid entry matching the
virtual page and the global `currentASID`. -/
def GTLB.findHit (g : GTLBGlobal) (n v : Nat) : Option Nat :=
  (List.range n).find? (fun i =>
    let e := g.tlbEntries.getD i GTLB.emptyEntry
    e.valid && e.vPage == v && e.asid == g.currentASID)

/-- Models `TLB::lookup` of the sketch: bumps the instance's `nLookups`; on first
use resizes the global entry array; on a hit bumps `nHits` and moves the
slot index to the front of the global LRU list. -/
def GTLB.lookup (inst : GTLBInst) (g : GTLBGlobal) (v : Nat) :
    Option Nat × GTLBInst × GTLBGlobal :=
  let inst := { inst with nLookups := inst.nLookups + 1 }
  if g.tlbInitialized = false then
    (none, inst,
     { g with tlbEntries := List.replicate inst.nEntries GTLB.emptyEntry,
              tlbInitialized := true })
  else
    match GTLB.findHit g inst.nEntries v with
    | some i =>
      let e := g.tlbEntries.getD i GTLB.emptyEntry
      (some e.pPage, { inst with nHits := inst.nHits + 1 },
       { g with lruOrder := i :: g.lruOrder.filter (fun j => j != i) })
    | none => (none, inst, g)

/-- Models `TLB::add` of the sketch: on first use resizes the global entry array;
prefers an empty slot, otherwise evicts the LRU slot (bumping the instance's
`nEvictions`); writes the new entry tagged with the global `currentASID` and
pushes its slot index at the front of the global LRU list. -/
def GTLB.add (inst : GTLBInst) (g : GTLBGlobal) (v p : Nat) :
    GTLBInst × GTLBGlobal :=
  let g :=
    if g.tlbInitialized = false then
      { g with tlbEntries := List.replicate inst.nEntries GTLB.emptyEntry,
               tlbInitialized := true }
    else g
  match (List.range inst.nEntries).find? (fun i =>
      !(g.tlbEntries.getD i GTLB.emptyEntry).valid) with
  | some i =>
    (inst, { g with tlbEntries := g.tlbEntries.set i ⟨v, p, g.currentASID, true⟩,
                    lruOrder := i :: g.lruOrder })
  | none =>
    let r := g.lruOrder.getLast?.getD 0
    let lru := g.lruOrder.dropLast
    ({ inst with nEvictions := inst.nEvictions + 1 },
     { g with tlbEntries := g.tlbEntries.set r ⟨v, p, g.currentASID, true⟩,
              lruOrder := r :: lru })

/-! ## Hole-list physical-page allocator (pagetables-base-2024
os/physmemmanager.cc)

`std::list<Hole>` is a Lean list of `(startPage, count)` pairs. The RAM base
address used by the constructor's `mmap` hint. -/

/-- Assumed start of "physical" RAM (physmemmanager.h). -/
def physMemBase : Nat := 16 * 1024 * 1024 * 1024

structure PMState where
  base : Nat
  pageSize : Nat
  nPages : Nat
  nAllocatedPages : Nat
  maxAllocatedPages : Nat
  holes : List (Nat × Nat)
deriving DecidableEq, Repr

/-- Constructor state: one hole covering all of memory. -/
def PhysMemManager.mk (base pageSize memorySize : Nat) : PMState :=
  { base := base, pageSize := pageSize, nPages := memorySize / pageSize,
    nAllocatedPages := 0, maxAllocatedPages := 0,
    holes := [(0, memorySize / pageSize)] }

/-- Models `PhysMemManager::findFit`: index of the first hole with at least `count`
pages, scanning the list front to back. -/
def PhysMemManager.findFit (holes : List (Nat × Nat)) (count : Nat) : Option Nat :=
  match holes with
  | [] => none
  | h :: t =>
    if count ≤ h.2 then some 0
    else (PhysMemManager.findFit t count).map (· + 1)

/-- Models `PhysMemManager::splitHole`: remove the hole at index `i` and append the
remainders (before and after the allocated range) at the tail of the list. -/
def PhysMemManager.splitHole (holes : List (Nat × Nat)) (i startPage count : Nat) :
    List (Nat × Nat) :=
  let orig := holes.getD i (0, 0)
  let hs := holes.eraseIdx i
  let hs := if orig.1 < startPage then hs ++ [(orig.1, startPage - orig.1)] else hs
  let endP := startPage + count
  let origEnd := orig.1 + orig.2
  if endP < origEnd then hs ++ [(endP, origEnd - endP)] else hs

/-- Models `PhysMemManager::allocatePages` (hole-list variant): fail upfront when
too few pages remain, find the first fitting hole, allocate from its low
end, split the hole and update the statistics. -/
def PhysMemManager.allocatePages (st : PMState) (count : Nat) : Option Nat × PMState :=
  if st.nPages < st.nAllocatedPages + count then (none, st)
  else
    match PhysMemManager.findFit st.holes count with
    | none => (none, st)
    | some i =>
      let startPage := (st.holes.getD i (0, 0)).1
      let addr := st.base + startPage * st.pageSize
      (some addr,
       { st with holes := PhysMemManager.splitHole st.holes i startPage count,
                 nAllocatedPages := st.nAllocatedPages + count,
                 maxAllocatedPages :=
                   max st.maxAllocatedPages (st.nAllocatedPages + count) })

/-- Stable insertion of a hole into a list sorted by start page; models the
stable `std::list::sort` comparator `a.startPage < b.startPage`. -/
def PhysMemManager.insertSorted (x : Nat × Nat) : List (Nat × Nat) → List (Nat × Nat)
  | [] => [x]
  | h :: t => if x.1 < h.1 then x :: h :: t else h :: PhysMemManager.insertSorted x t

/-- Stable sort of the hole list by start page. -/
def PhysMemManager.sortHoles : List (Nat × Nat) → List (Nat × Nat)
  | [] => []
  | h :: t => PhysMemManager.insertSorted h (PhysMemManager.sortHoles t)

/-- Fuelled single pass merging adjacent holes of a sorted list (the merge
loop of `PhysMemManager::mergeHoles`); the fuel bounds the number of loop
iterations, which never exceeds the list length. -/
def PhysMemManager.mergeAdjacent : Nat → List (Nat × Nat) → List (Nat × Nat)
  | 0, l => l
  | _, [] => []
  | _, [h] => [h]
  | fuel + 1, a :: b :: rest =>
    if a.1 + a.2 = b.1 then PhysMemManager.mergeAdjacent fuel ((a.1, a.2 + b.2) :: rest)
    else a :: PhysMemManager.mergeAdjacent fuel (b :: rest)

/-- Models `PhysMemManager::mergeHoles`: sort by start page, then merge adjacent
holes. -/
def PhysMemManager.mergeHoles (holes : List (Nat × Nat)) : List (Nat × Nat) :=
  PhysMemManager.mergeAdjacent (PhysMemManager.sortHoles holes).length
    (PhysMemManager.sortHoles holes)

/-- Models `PhysMemManager::releasePages` (hole-list variant): translate the address
back to a page index, append the released range as a new hole, merge, and
decrement `nAllocatedPages`. -/
def PhysMemManager.releasePages (st : PMState) (addr count : Nat) : PMState :=
  let startPage := (addr - st.base) / st.pageSize
  { st with holes := PhysMemManager.mergeHoles (st.holes ++ [(startPage, count)]),
            nAllocatedPages := st.nAllocatedPages - count }

/-- Models `PhysMemManager::allReleased`. -/
def PhysMemManager.allReleased (st : PMState) : Bool :=
  st.nAllocatedPages == 0

/-! ## Bitmap physical-page allocator (os/physmemmanager.cc)

The `std::vector<bool> allocated` bitmap is a Lean list of `Bool`. -/

structure BMState where
  base : Nat
  pageSize : Nat
  nPages : Nat
  nAllocatedPages : Nat
  maxAllocatedPages : Nat
  allocated : List Bool
deriving DecidableEq, Repr

/-- Constructor state of the bitmap allocator: all pages free. -/
def BitmapPMM.mk (base pageSize memorySize : Nat) : BMState :=
  { base := base, pageSize := pageSize, nPages := memorySize / pageSize,
    nAllocatedPages := 0, maxAllocatedPages := 0,
    allocated := List.replicate (memorySize / pageSize) false }

/-- Fuelled inner loop of the bitmap scan: starting at `i`, skip free pages
until an allocated one (or the cap) is reached, returning the stop index;
mirrors the `for` loop advancing `index` inside `allocatePages`. -/
def BitmapPMM.scanFree (alloc : List Bool) (i : Nat) : Nat → Nat
  | 0 => i
  | fuel + 1 =>
    if alloc.getD i true then i else BitmapPMM.scanFree alloc (i + 1) fuel

/-- Fuelled outer loop of `BitmapPMM` first-fit scan: from `index`, find the
first run of `count` consecutive free pages, advancing past the position
where a candidate run was interrupted; the fuel bounds the number of outer
iterations. -/
def BitmapPMM.scan (alloc : List Bool) (nPages count index : Nat) : Nat → Option Nat
  | 0 => none
  | fuel + 1 =>
    if index < nPages then
      if alloc.getD index true = false then
        let stop := min (index + count) nPages
        let j := BitmapPMM.scanFree alloc index (stop - index)
        if j = index + count then some index
        else BitmapPMM.scan alloc nPages count (j + 1) fuel
      else BitmapPMM.scan alloc nPages count (index + 1) fuel
    else none

/-- Mark `count` pages starting at `s` as allocated. -/
def BitmapPMM.setRange (l : List Bool) (s : Nat) : Nat → List Bool
  | 0 => l
  | n + 1 => BitmapPMM.setRange (l.set s true) (s + 1) n

/-- Mark `count` pages starting at `s` as free. -/
def BitmapPMM.clearRange (l : List Bool) (s : Nat) : Nat → List Bool
  | 0 => l
  | n + 1 => BitmapPMM.clearRange (l.set s false) (s + 1) n

/-- Models `PhysMemManager::allocatePages` (bitmap variant): fail upfront when too
few pages remain, then scan the bitmap for the first free run of `count`
pages, mark it allocated and update the statistics. -/
def BitmapPMM.allocatePages (st : BMState) (count : Nat) : Option Nat × BMState :=
  if st.nPages < st.nAllocatedPages + count then (none, st)
  else
    match BitmapPMM.scan st.allocated st.nPages count 0 (st.nPages + 1) with
    | none => (none, st)
    | some start =>
      (some (st.base + start * st.pageSize),
       { st with allocated := BitmapPMM.setRange st.allocated start count,
                 nAllocatedPages := st.nAllocatedPages + count,
                 maxAllocatedPages :=
                   max st.maxAllocatedPages (st.nAllocatedPages + count) })

/-- Models `PhysMemManager::releasePages` (bitmap variant). -/
def BitmapPMM.releasePages (st : BMState) (addr count : Nat) : BMState :=
  let index := (addr - st.base) / st.pageSize
  { st with allocated := BitmapPMM.clearRange st.allocated index count,
            nAllocatedPages := st.nAllocatedPages - count }

/-! ## AArch64 page tables: entries, memory, walker, driver

Constants from aarch64.h: 48-bit addresses, 14-bit page offset (16 KiB
pages), a 4-level tree with 2 entries at L0 and 2048 entries at L1/L2/L3,
page tables aligned to the page size. A `SimpleTableEntry` is modelled with
its bitfields as separate components; the 34-bit `physicalPageNum` bitfield
truncates stores modulo `2 ^ 34`. "Physical" memory is the byte memory of
the simulation viewed at page-aligned table base addresses: `mem a i` is the
`SimpleTableEntry` at byte address `a + 8 * i`. Distinct page-aligned bases
of one-page tables never overlap, so this view is faithful. -/

structure SimpleTableEntry where
  valid : Bool
  type : Bool
  physicalPageNum : Nat
  referenced : Bool
  dirty : Bool
deriving DecidableEq, Repr

/-- A zero-initialized table entry (invalid). -/
def PT.zeroEntry : SimpleTableEntry :=
  { valid := false, type := false, physicalPageNum := 0,
    referenced := false, dirty := false }

/-- Byte memory viewed as table entries at page-aligned table bases. -/
def PTMem : Type := Nat → Nat → SimpleTableEntry

/-- Write one table entry at base address `a`, index `i`. -/
def PT.writeE (m : PTMem) (a i : Nat) (e : SimpleTableEntry) : PTMem :=
  fun a' i' => if a' = a ∧ i' = i then e else m a' i'

/-- Zero the first `n` entries of the table at base `a` (the `memset` of the
driver's allocation paths). -/
def PT.zeroTable (m : PTMem) (a n : Nat) : PTMem :=
  fun a' i' => if a' = a ∧ i' < n then PT.zeroEntry else m a' i'

/-- Models `L0_INDEX`: bit 47 of the virtual address. -/
def PT.l0Index (vAddr : Nat) : Nat := (vAddr >>> 47) % 2

/-- Models `L1_INDEX`: bits 46:36 of the virtual address. -/
def PT.l1Index (vAddr : Nat) : Nat := (vAddr >>> 36) % 2048

/-- Models `L2_INDEX`: bits 35:25 of the virtual address. -/
def PT.l2Index (vAddr : Nat) : Nat := (vAddr >>> 25) % 2048

/-- Models `L3_INDEX`: bits 24:14 of the virtual address. -/
def PT.l3Index (vAddr : Nat) : Nat := (vAddr >>> 14) % 2048

/-- Models `initTableEntry` (aarch64 driver.cc): zero the entry, store the page
number of `address` in the 34-bit `physicalPageNum` bitfield, set `valid`,
and set `type` for interior (table) entries. -/
def PT.initTableEntry (address : Nat) (isTable : Bool) : SimpleTableEntry :=
  { valid := true, type := isTable, physicalPageNum := (address >>> 14) % 2 ^ 34,
    referenced := false, dirty := false }

/-- Models `getAddress` (aarch64 driver.cc): the byte address stored in an entry. -/
def PT.getAddress (e : SimpleTableEntry) : Nat := e.physicalPageNum <<< 14

/-- Models `AArch64MMU::performTranslation` (aarch64 mmu.cc). `none` models the
`std::runtime_error` thrown for an unaligned root. Otherwise the result is
`(success, pPage, memory)`: each invalid or non-table interior slot and an
invalid L3 leaf return `(false, 0, m)` with the memory untouched; on success
the L3 leaf's `referenced` bit is set, its `dirty` bit is set when `isWrite`,
and its physical page number is returned. The `pPage` component is the
out-parameter and is meaningful only on success. -/
def AArch64MMU.performTranslation (m : PTMem) (root vPage : Nat) (isWrite : Bool) :
    Option (Bool × Nat × PTMem) :=
  if root % 16384 ≠ 0 then none
  else
    let vAddr := vPage <<< 14
    let e0 := m root (PT.l0Index vAddr)
    if e0.valid = false ∨ e0.type = false then some (false, 0, m)
    else
      let l1 := PT.getAddress e0
      let e1 := m l1 (PT.l1Index vAddr)
      if e1.valid = false ∨ e1.type = false then some (false, 0, m)
      else
        let l2 := PT.getAddress e1
        let e2 := m l2 (PT.l2Index vAddr)
        if e2.valid = false ∨ e2.type = false then some (false, 0, m)
        else
          let l3 := PT.getAddress e2
          let e3 := m l3 (PT.l3Index vAddr)
          if e3.valid = false then some (false, 0, m)
          else
            some (true, e3.physicalPageNum,
              PT.writeE m l3 (PT.l3Index vAddr)
                { e3 with referenced := true,
                          dirty := if isWrite then true else e3.dirty })

/-- Driver state: the byte memory, the `pageTables` map from PID to L0 root
address (association list), the `bytesAllocated` counter, and the state of
the kernel-memory collaborator. Modelled from the spec: the external
`OSKernel::allocateMemory(size, pageTableAlign)` collaborator is not part of
the sources; per its contract it returns a fresh page-aligned region, here
the page with index `next` (so address `next * 16384`, starting at 1 so that
no root is the null pointer). -/
structure DrvState where
  mem : PTMem
  pageTables : List (Nat × Nat)
  bytesAllocated : Nat
  next : Nat

/-- Initial driver state over all-zero memory. -/
def PT.initState : DrvState :=
  { mem := fun _ _ => PT.zeroEntry, pageTables := [], bytesAllocated := 0, next := 1 }

/-- Lookup in the `pageTables` map. -/
def PT.mapFind (l : List (Nat × Nat)) (k : Nat) : Option Nat :=
  (l.find? (fun p => p.1 == k)).map (·.2)

/-- Update-or-insert in the `pageTables` map (`unordered_map::operator[]`
followed by assignment: an existing binding is silently replaced). -/
def PT.mapSet (l : List (Nat × Nat)) (k v : Nat) : List (Nat × Nat) :=
  match l with
  | [] => [(k, v)]
  | p :: rest => if p.1 = k then (k, v) :: rest else p :: PT.mapSet rest k v

/-- Erasure from the `pageTables` map. -/
def PT.mapErase (l : List (Nat × Nat)) (k : Nat) : List (Nat × Nat) :=
  l.filter (fun p => p.1 != k)

/-- Models `AArch64MMUDriver::allocatePageTableLevel`: allocate one page-aligned
table of `L1_ENTRIES * sizeof(SimpleTableEntry) = 2048 * 8` bytes from the
kernel, add the size to `bytesAllocated`, and zero the table. -/
def AArch64MMUDriver.allocatePageTableLevel (st : DrvState) : Nat × DrvState :=
  let addr := st.next * 16384
  (addr,
   { st with next := st.next + 1,
             bytesAllocated := st.bytesAllocated + 2048 * 8,
             mem := PT.zeroTable st.mem addr 2048 })

/-- Models `AArch64MMUDriver::getOrCreateTable`: create and link a fresh child table
when the parent slot is invalid; follow an existing table link; fail (throw)
when the slot is valid but not a table. The parent slot write happens after
the child allocation, as in the source. -/
def AArch64MMUDriver.getOrCreateTable (st : DrvState) (parent index : Nat) :
    Option Nat × DrvState :=
  let e := st.mem parent index
  if e.valid = false then
    let (newTable, st) := AArch64MMUDriver.allocatePageTableLevel st
    (some newTable,
     { st with mem := PT.writeE st.mem parent index (PT.initTableEntry newTable true) })
  else if e.type then (some (PT.getAddress e), st)
  else (none, st)

/-- Models `AArch64MMUDriver::allocatePageTable`: allocate and zero an L0 table of
`L0_ENTRIES * 8 = 16` bytes, add the size to `bytesAllocated`, and bind
`pageTables[PID]` to it — with no check for an existing binding. -/
def AArch64MMUDriver.allocatePageTable (st : DrvState) (pid : Nat) : DrvState :=
  let addr := st.next * 16384
  { st with next := st.next + 1,
            bytesAllocated := st.bytesAllocated + 2 * 8,
            mem := PT.zeroTable st.mem addr 2,
            pageTables := PT.mapSet st.pageTables pid addr }

/-- Models `AArch64MMUDriver::setMapping`: mask the virtual address to 48 bits,
walk/create the interior levels, and write the L3 leaf entry for
`pPage.addr`. The result flag is `false` when the PID has no page table or
an interior slot is valid but not a table (both throw in the source); the
returned state carries any interior tables created before the failure, as
the source's exception does. The L3 entry location `(l3, l3Index)` stamped
into `pPage.driverData` is not returned since no claim consumes it. -/
def AArch64MMUDriver.setMapping (st : DrvState) (pid vAddrIn pAddr : Nat) :
    DrvState × Bool :=
  let vAddr := vAddrIn % 2 ^ 48
  match PT.mapFind st.pageTables pid with
  | none => (st, false)
  | some root =>
    match AArch64MMUDriver.getOrCreateTable st root (PT.l0Index vAddr) with
    | (none, st) => (st, false)
    | (some l1, st) =>
      match AArch64MMUDriver.getOrCreateTable st l1 (PT.l1Index vAddr) with
      | (none, st) => (st, false)
      | (some l2, st) =>
        match AArch64MMUDriver.getOrCreateTable st l2 (PT.l2Index vAddr) with
        | (none, st) => (st, false)
        | (some l3, st) =>
          ({ st with mem := PT.writeE st.mem l3 (PT.l3Index vAddr)
                              (PT.initTableEntry pAddr false) }, true)

/-- Models `AArch64MMUDriver::releasePageTable`: recursively hand the tree's nodes
back to the kernel (`releaseMemory` neither rewrites entries nor touches
`bytesAllocated`, so the memory view is unchanged) and erase the PID
binding; absent PIDs are a no-op. -/
def AArch64MMUDriver.releasePageTable (st : DrvState) (pid : Nat) : DrvState :=
  match PT.mapFind st.pageTables pid with
  | none => st
  | some _ => { st with pageTables := PT.mapErase st.pageTables pid }

/-- Models `AArch64MMUDriver::setPageValid` acting on the L3 entry referenced by a
handle's `driverData` cookie `(a, i)`: re-validating an invalid entry
throws (`false`), otherwise the `valid` bit is assigned. -/
def AArch64MMUDriver.setPageValid (st : DrvState) (a i : Nat) (setting : Bool) :
    DrvState × Bool :=
  let e := st.mem a i
  if e.valid = false ∧ setting then (st, false)
  else ({ st with mem := PT.writeE st.mem a i { e with valid := setting } }, true)

/-- Driver operations for reasoning over call sequences. -/
inductive DrvOp where
  | allocPT (pid : Nat)
  | setMap (pid vAddr pAddr : Nat)
  | releasePT (pid : Nat)
  | setValid (a i : Nat) (setting : Bool)
deriving DecidableEq, Repr

/-- One driver call (failed calls leave the state the exception left). -/
def PT.drvStep (st : DrvState) : DrvOp → DrvState
  | .allocPT pid => AArch64MMUDriver.allocatePageTable st pid
  | .setMap pid v p => (AArch64MMUDriver.setMapping st pid v p).1
  | .releasePT pid => AArch64MMUDriver.releasePageTable st pid
  | .setValid a i b => (AArch64MMUDriver.setPageValid st a i b).1

/-- Replay a sequence of driver calls. -/
def PT.drvRun (st : DrvState) (ops : List DrvOp) : DrvState :=
  ops.foldl PT.drvStep st

/-- Number of entries of a table at a given level (2 at L0, 2048 above). -/
def PT.tableEntries (k : Nat) : Nat := if k = 0 then 2 else 2048

/-- Structural well-formedness of a driver state, witnessed by a list
`alloc` of `(base address, level)` pairs of the live tables: addresses are
distinct, page-aligned, nonzero and below the allocation frontier; every
root in `pageTables` is a level-0 table; and every valid slot of an interior
table is a table link to a level-below table of the witness. -/
def PT.InvAlloc (st : DrvState) (alloc : List (Nat × Nat)) : Prop :=
  (alloc.map Prod.fst).Nodup ∧
  1 ≤ st.next ∧
  (∀ p ∈ alloc, p.1 % 16384 = 0 ∧ 1 ≤ p.1 / 16384 ∧ p.1 / 16384 < st.next ∧ p.2 ≤ 3) ∧
  (∀ pr ∈ st.pageTables, (pr.2, 0) ∈ alloc) ∧
  (∀ p ∈ alloc, p.2 < 3 → ∀ i, i < PT.tableEntries p.2 →
    (st.mem p.1 i).valid = true →
    (st.mem p.1 i).type = true ∧ ((st.mem p.1 i).physicalPageNum <<< 14, p.2 + 1) ∈ alloc)

/-- Well-formed driver state with headroom of at least three fresh tables
below the 48-bit physical address space. -/
def PT.Inv (st : DrvState) : Prop :=
  ∃ alloc : List (Nat × Nat), PT.InvAlloc st alloc ∧ st.next + 3 ≤ 2 ^ 34

/-! Concrete scenario states (spec §8, S1/S2 and the duplicate-PID call). -/

/-- State with one process page table (PID 1, root at address 16384) over a
fresh all-zero L0 table. -/
def PT.s1State : DrvState :=
  AArch64MMUDriver.allocatePageTable PT.initState 1

/-- Scenario S2 state: mapping `0x12345 → 0xABCDE` installed for PID 1 via
`setMapping` (handle address `0xABCDE <<< 14`). -/
def PT.s2State : DrvState :=
  (AArch64MMUDriver.setMapping PT.s1State 1 (0x12345 <<< 14) (0xABCDE <<< 14)).1

/-- First (read) translation of scenario S2. -/
def PT.s2Walk1 : Option (Bool × Nat × PTMem) :=
  AArch64MMU.performTranslation PT.s2State.mem 16384 0x12345 false

/-- Memory after the first translation of scenario S2. -/
def PT.s2Mem1 : PTMem :=
  (PT.s2Walk1.map (fun r => r.2.2)).getD PT.s2State.mem

/-- Second (write) translation of scenario S2. -/
def PT.s2Walk2 : Option (Bool × Nat × PTMem) :=
  AArch64MMU.performTranslation PT.s2Mem1 16384 0x12345 true

/-! Concrete allocator scenario states (spec §8, S5 and the out-of-memory
test): 30 pages of 4096 bytes, six 5-page allocations `a0..a5`, then
releases of `a0`, `a2`, `a4`. -/

/-- State part of an allocation on the hole-list allocator. -/
def PhysMemManager.allocStep (st : PMState) (count : Nat) : PMState :=
  (PhysMemManager.allocatePages st count).2

/-- Hole-list allocator state after the six 5-page allocations of S5. -/
def PhysMemManager.s5Full : PMState :=
  PhysMemManager.allocStep (PhysMemManager.allocStep (PhysMemManager.allocStep
    (PhysMemManager.allocStep (PhysMemManager.allocStep (PhysMemManager.allocStep
      (PhysMemManager.mk physMemBase 4096 (30 * 4096)) 5) 5) 5) 5) 5) 5

/-- Hole-list allocator state of S5 after releasing `a0`, `a2` and `a4`. -/
def PhysMemManager.s5Holes : PMState :=
  PhysMemManager.releasePages
    (PhysMemManager.releasePages
      (PhysMemManager.releasePages PhysMemManager.s5Full physMemBase 5)
      (physMemBase + 10 * 4096) 5)
    (physMemBase + 20 * 4096) 5

/-- Hole-list allocator state of S5 after the subsequent `allocatePages(3)`. -/
def PhysMemManager.s5After3 : PMState :=
  PhysMemManager.allocStep PhysMemManager.s5Holes 3

/-- State part of an allocation on the bitmap allocator. -/
def BitmapPMM.allocStep (st : BMState) (count : Nat) : BMState :=
  (BitmapPMM.allocatePages st count).2

/-- Bitmap allocator state after the six 5-page allocations of S5. -/
def BitmapPMM.s5Full : BMState :=
  BitmapPMM.allocStep (BitmapPMM.allocStep (BitmapPMM.allocStep
    (BitmapPMM.allocStep (BitmapPMM.allocStep (BitmapPMM.allocStep
      (BitmapPMM.mk physMemBase 4096 (30 * 4096)) 5) 5) 5) 5) 5) 5

/-- Bitmap allocator state of S5 after releasing `a0`, `a2` and `a4`. -/
def BitmapPMM.s5Holes : BMState :=
  BitmapPMM.releasePages
    (BitmapPMM.releasePages
      (BitmapPMM.releasePages BitmapPMM.s5Full physMemBase 5)
      (physMemBase + 10 * 4096) 5)
    (physMemBase + 20 * 4096) 5

/-- Bitmap allocator state of S5 after the subsequent `allocatePages(3)`. -/
def BitmapPMM.s5After3 : BMState :=
  BitmapPMM.allocStep BitmapPMM.s5Holes 3

/-! ## Lemmas about the instance-scoped TLB -/

/-- A found entry is a member and carries the searched virtual address. -/
theorem TLB.findV_mem {v : Nat} {s : List TLBEntry} {e : TLBEntry}
    (h : TLB.findV v s = some e) : e ∈ s ∧ e.virtualAddress = v := by
  refine ⟨List.mem_of_find?_eq_some h, ?_⟩
  have := List.find?_some h
  simpa using this

/-- On a list with unique virtual addresses, the entry for `v` is found. -/
theorem TLB.findV_of_mem_uniq {v : Nat} {s : List TLBEntry} {e : TLBEntry}
    (hu : TLB.uniqV s) (hm : e ∈ s) (hv : e.virtualAddress = v) :
    TLB.findV v s = some e := by
  induction s with
  | nil => cases hm
  | cons a t ih =>
    rcases List.mem_cons.mp hm with rfl | hmt
    · exact List.find?_cons_of_pos _ (by simpa using hv)
    · by_cases hav : a.virtualAddress = v
      · exact absurd (hv ▸ hav) ((List.pairwise_cons.mp hu).1 e hmt)
      · rw [TLB.findV, List.find?_cons_of_neg _ (by simpa using hav)]
        exact ih (List.pairwise_cons.mp hu).2 hmt

/-- Uniqueness makes the entry for `v` unique among members. -/
theorem TLB.uniq_v_unique {v : Nat} {s : List TLBEntry} {e e' : TLBEntry}
    (hu : TLB.uniqV s) (h : TLB.findV v s = some e) (hm : e' ∈ s)
    (hv : e'.virtualAddress = v) : e' = e := by
  have := TLB.findV_of_mem_uniq hu hm hv
  rw [h] at this
  exact (Option.some.inj this).symm

/-- Members of the erased list are members of the original list. -/
theorem TLB.mem_eraseV {v : Nat} {s : List TLBEntry} {e : TLBEntry}
    (h : e ∈ TLB.eraseV v s) : e ∈ s :=
  List.mem_of_mem_eraseP h

/-- Entries for other virtual addresses survive the erasure. -/
theorem TLB.mem_eraseV_of_ne {v : Nat} {s : List TLBEntry} {e : TLBEntry}
    (hm : e ∈ s) (hne : e.virtualAddress ≠ v) : e ∈ TLB.eraseV v s := by
  induction s with
  | nil => cases hm
  | cons a t ih =>
    by_cases hav : a.virtualAddress = v
    · rw [TLB.eraseV, List.eraseP_cons_of_pos (by simpa using hav)]
      rcases List.mem_cons.mp hm with rfl | hmt
      · exact absurd hav hne
      · exact hmt
    · rw [TLB.eraseV, List.eraseP_cons_of_neg (by simpa using hav)]
      rcases List.mem_cons.mp hm with rfl | hmt
      · exact List.mem_cons_self _ _
      · exact List.mem_cons_of_mem _ (ih hmt)

/-- After erasing `v` from a unique list, no entry for `v` remains. -/
theorem TLB.findV_eraseV_self {v : Nat} {s : List TLBEntry}
    (hu : TLB.uniqV s) : TLB.findV v (TLB.eraseV v s) = none := by
  induction s with
  | nil => rfl
  | cons a t ih =>
    by_cases hav : a.virtualAddress = v
    · rw [TLB.eraseV, List.eraseP_cons_of_pos (by simpa using hav)]
      refine List.find?_eq_none.mpr (fun e he => ?_)
      have : a.virtualAddress ≠ e.virtualAddress := (List.pairwise_cons.mp hu).1 e he
      simp only [beq_iff_eq]
      exact fun hev => this (by rw [hav, hev])
    · rw [TLB.eraseV, List.eraseP_cons_of_neg (by simpa using hav)]
      rw [TLB.findV, List.find?_cons_of_neg _ (by simpa using hav)]
      exact ih (List.pairwise_cons.mp hu).2

/-- Erasing a different virtual address does not change the lookup for `v`. -/
theorem TLB.findV_eraseV_ne {v v' : Nat} (hne : v' ≠ v) (s : List TLBEntry) :
    TLB.findV v (TLB.eraseV v' s) = TLB.findV v s := by
  induction s with
  | nil => rfl
  | cons a t ih =>
    by_cases hav : a.virtualAddress = v'
    · rw [TLB.eraseV, List.eraseP_cons_of_pos (by simpa using hav)]
      have hr : TLB.findV v (a :: t) = TLB.findV v t := by
        rw [TLB.findV, List.find?_cons_of_neg _ (by simp [hav, hne])]
        rfl
      rw [hr]
    · rw [TLB.eraseV, List.eraseP_cons_of_neg (by simpa using hav)]
      by_cases havv : a.virtualAddress = v
      · rw [TLB.findV, List.find?_cons_of_pos _ (by simpa using havv),
            TLB.findV, List.find?_cons_of_pos _ (by simpa using havv)]
      · rw [TLB.findV, List.find?_cons_of_neg _ (by simpa using havv),
            TLB.findV, List.find?_cons_of_neg _ (by simpa using havv)]
        exact ih

/-- Uniqueness of virtual addresses survives erasure. -/
theorem TLB.uniq_eraseV {v : Nat} {s : List TLBEntry} (hu : TLB.uniqV s) :
    TLB.uniqV (TLB.eraseV v s) :=
  List.Pairwise.sublist (List.eraseP_sublist s) hu

/-- Uniqueness of virtual addresses survives dropping the last entry. -/
theorem TLB.uniq_dropLast {s : List TLBEntry} (hu : TLB.uniqV s) :
    TLB.uniqV s.dropLast :=
  List.Pairwise.sublist (List.dropLast_sublist s) hu

/-- No entry of the erased list has virtual address `v` (unique lists). -/
theorem TLB.eraseV_no_v {v : Nat} {s : List TLBEntry} (hu : TLB.uniqV s) :
    ∀ e ∈ TLB.eraseV v s, e.virtualAddress ≠ v := by
  intro e he
  have := TLB.findV_eraseV_self (v := v) hu
  have h2 := List.find?_eq_none.mp this e he
  simpa using h2

/-- Lemma: `addEntry` preserves uniqueness of virtual addresses. -/
theorem TLB.uniq_addEntry {n : Nat} {s : List TLBEntry} {v p a : Nat}
    (hu : TLB.uniqV s) : TLB.uniqV (TLB.addEntry n s v p a) := by
  have hu1 : TLB.uniqV (TLB.eraseV v s) := TLB.uniq_eraseV hu
  have hno : ∀ e ∈ TLB.eraseV v s, e.virtualAddress ≠ v := TLB.eraseV_no_v hu
  unfold TLB.addEntry
  by_cases hl : (TLB.eraseV v s).length = n
  · simp only [if_pos hl]
    refine List.pairwise_cons.mpr ⟨?_, TLB.uniq_dropLast hu1⟩
    intro e he
    have := hno e (List.dropLast_sublist _ |>.mem he)
    exact fun h => this (by rw [← h])
  · simp only [if_neg hl]
    refine List.pairwise_cons.mpr ⟨?_, hu1⟩
    intro e he
    have := hno e he
    exact fun h => this (by rw [← h])

/-- The lookup state transformer preserves uniqueness. -/
theorem TLB.uniq_lookupState {s : List TLBEntry} {v a : Nat}
    (hu : TLB.uniqV s) : TLB.uniqV (TLB.lookupState s v a) := by
  unfold TLB.lookupState
  cases hf : TLB.findV v s with
  | none => exact hu
  | some e =>
    by_cases ha : e.asid = a
    · simp only [if_pos ha]
      refine List.pairwise_cons.mpr ⟨?_, TLB.uniq_eraseV hu⟩
      intro e' he'
      have hv := (TLB.findV_mem hf).2
      have := TLB.eraseV_no_v hu e' he'
      exact fun h => this (by rw [← h, hv])
    · simp only [if_neg ha]
      exact hu

/-- Every TLB operation preserves uniqueness of virtual addresses. -/
theorem TLB.uniq_step {n : Nat} {s : List TLBEntry} {op : TLBOp}
    (hu : TLB.uniqV s) : TLB.uniqV (TLB.step n s op) := by
  cases op with
  | add v p a => exact TLB.uniq_addEntry hu
  | look v a => exact TLB.uniq_lookupState hu
  | flushAll => exact List.Pairwise.nil
  | flushASID a => exact List.Pairwise.sublist (List.filter_sublist s) hu

/-- Replaying any trace preserves uniqueness of virtual addresses. -/
theorem TLB.uniq_runFrom {n : Nat} (t : List TLBOp) (s : List TLBEntry)
    (hu : TLB.uniqV s) : TLB.uniqV (TLB.runFrom n s t) := by
  induction t generalizing s with
  | nil => exact hu
  | cons op t ih => exact ih _ (TLB.uniq_step hu)

/-- The TLB reached from empty by any trace has unique virtual addresses. -/
theorem TLB.uniq_run (n : Nat) (ops : List TLBOp) : TLB.uniqV (TLB.run n ops) :=
  TLB.uniq_runFrom ops [] List.Pairwise.nil

/-- Lemma: `addEntry` keeps the entry count within a positive capacity. -/
theorem TLB.length_addEntry_le {n : Nat} {s : List TLBEntry} {v p a : Nat}
    (hn : 1 ≤ n) (hl : s.length ≤ n) : (TLB.addEntry n s v p a).length ≤ n := by
  have h1 : (TLB.eraseV v s).length ≤ s.length :=
    List.Sublist.length_le (List.eraseP_sublist s)
  simp only [TLB.addEntry, List.length_cons]
  by_cases he : (TLB.eraseV v s).length = n
  · rw [if_pos he]
    simp only [List.length_dropLast]
    omega
  · rw [if_neg he]
    omega

/-- The lookup state transformer keeps the entry count within capacity. -/
theorem TLB.length_lookupState_le {n : Nat} {s : List TLBEntry} {v a : Nat}
    (hl : s.length ≤ n) : (TLB.lookupState s v a).length ≤ n := by
  unfold TLB.lookupState
  cases hf : TLB.findV v s with
  | none => exact hl
  | some e =>
    by_cases ha : e.asid = a
    · simp only [if_pos ha, List.length_cons]
      have hm := (TLB.findV_mem hf).1
      have hv := (TLB.findV_mem hf).2
      have : (TLB.eraseV v s).length = s.length - 1 :=
        List.length_eraseP_of_mem hm (by simpa using hv)
      have hpos : 1 ≤ s.length := List.length_pos.mpr (List.ne_nil_of_mem hm)
      omega
    · simp only [if_neg ha]
      exact hl

/-- Every TLB operation keeps the entry count within a positive capacity. -/
theorem TLB.length_step_le {n : Nat} {s : List TLBEntry} {op : TLBOp}
    (hn : 1 ≤ n) (hl : s.length ≤ n) : (TLB.step n s op).length ≤ n := by
  cases op with
  | add v p a => exact TLB.length_addEntry_le hn hl
  | look v a => exact TLB.length_lookupState_le hl
  | flushAll => simp only [TLB.step, List.length_nil]; omega
  | flushASID a => exact le_trans (List.Sublist.length_le (List.filter_sublist s)) hl

/-- The TLB reached from empty never exceeds a positive capacity. -/
theorem TLB.length_run_le {n : Nat} (hn : 1 ≤ n) (ops : List TLBOp) :
    (TLB.run n ops).length ≤ n := by
  have gen : ∀ (t : List TLBOp) (s : List TLBEntry), s.length ≤ n →
      (TLB.runFrom n s t).length ≤ n := by
    intro t
    induction t with
    | nil => intro s hs; exact hs
    | cons op t ih => intro s hs; exact ih _ (TLB.length_step_le hn hs)
  exact gen ops [] (by simp)

/-- Lookup on a cons whose head carries the searched virtual address. -/
theorem TLB.findV_cons_pos {v : Nat} {a : TLBEntry} {t : List TLBEntry}
    (h : a.virtualAddress = v) : TLB.findV v (a :: t) = some a :=
  List.find?_cons_of_pos _ (by simpa using h)

/-- Lookup on a cons whose head carries another virtual address. -/
theorem TLB.findV_cons_neg {v : Nat} {a : TLBEntry} {t : List TLBEntry}
    (h : a.virtualAddress ≠ v) : TLB.findV v (a :: t) = TLB.findV v t := by
  rw [TLB.findV, List.find?_cons_of_neg _ (by simpa using h)]
  rfl

/-- An entry found after one operation either was just added for `v`
itself, or was already present unchanged and the operation did not
supersede it. -/
theorem TLB.step_findV_back {n : Nat} {s : List TLBEntry} {op : TLBOp}
    {v : Nat} {e : TLBEntry} (hu : TLB.uniqV s)
    (h : TLB.findV v (TLB.step n s op) = some e) :
    (∃ p a, op = TLBOp.add v p a ∧ e = ⟨v, p, a⟩) ∨
    (TLB.findV v s = some e ∧ TLB.supersedes v e.asid op = false) := by
  cases op with
  | add v' p a =>
    have hstep : TLB.step n s (.add v' p a) =
        (⟨v', p, a⟩ : TLBEntry) ::
          (if (TLB.eraseV v' s).length = n then (TLB.eraseV v' s).dropLast
           else TLB.eraseV v' s) := rfl
    by_cases hv : v' = v
    · subst hv
      left
      rw [hstep, TLB.findV_cons_pos (a := ⟨v', p, a⟩) rfl] at h
      exact ⟨p, a, rfl, (Option.some.inj h).symm⟩
    · rw [hstep, TLB.findV_cons_neg hv] at h
      have hsub : (if (TLB.eraseV v' s).length = n then (TLB.eraseV v' s).dropLast
          else TLB.eraseV v' s).Sublist (TLB.eraseV v' s) := by
        split
        · exact List.dropLast_sublist _
        · exact List.Sublist.refl _
      have hm := TLB.findV_mem h
      have hmem : e ∈ s := TLB.mem_eraseV (hsub.mem hm.1)
      right
      refine ⟨TLB.findV_of_mem_uniq hu hmem hm.2, ?_⟩
      simpa [TLB.supersedes] using hv
  | look v2 a2 =>
    have h : TLB.findV v ((match TLB.findV v2 s with
        | some e => if e.asid = a2 then e :: TLB.eraseV v2 s else s
        | none => s)) = some e := h
    cases hf : TLB.findV v2 s with
    | none =>
      rw [hf] at h
      exact Or.inr ⟨h, rfl⟩
    | some e2 =>
      rw [hf] at h
      have h : TLB.findV v (if e2.asid = a2 then e2 :: TLB.eraseV v2 s else s) =
          some e := h
      by_cases ha2 : e2.asid = a2
      · rw [if_pos ha2] at h
        by_cases hv2 : e2.virtualAddress = v
        · rw [TLB.findV_cons_pos hv2] at h
          have he : e2 = e := Option.some.inj h
          have hfv : v2 = v := by rw [← (TLB.findV_mem hf).2, hv2]
          subst hfv
          exact Or.inr ⟨he ▸ hf, rfl⟩
        · rw [TLB.findV_cons_neg hv2] at h
          have hne : v2 ≠ v := by
            intro hh
            exact hv2 (by rw [(TLB.findV_mem hf).2, hh])
          rw [TLB.findV_eraseV_ne hne] at h
          exact Or.inr ⟨h, rfl⟩
      · rw [if_neg ha2] at h
        exact Or.inr ⟨h, rfl⟩
  | flushAll => simp [TLB.step, TLB.findV] at h
  | flushASID a =>
    have h : TLB.findV v (s.filter (fun e => e.asid != a)) = some e := h
    have hm := TLB.findV_mem h
    have hmem := List.mem_filter.mp hm.1
    have hne : e.asid ≠ a := by simpa using hmem.2
    right
    refine ⟨TLB.findV_of_mem_uniq hu hmem.1 hm.2, ?_⟩
    simpa [TLB.supersedes] using Ne.symm hne

/-- A present entry survives a non-superseding operation unchanged, except
that an add on a different virtual address may evict it. -/
theorem TLB.step_findV_clean {n : Nat} {s : List TLBEntry} {op : TLBOp}
    {v : Nat} {e : TLBEntry} (hu : TLB.uniqV s)
    (hsup : TLB.supersedes v e.asid op = false) (h : TLB.findV v s = some e) :
    TLB.findV v (TLB.step n s op) = some e ∨
    ((∃ v' p a, op = TLBOp.add v' p a ∧ v' ≠ v) ∧
      TLB.findV v (TLB.step n s op) = none) := by
  cases op with
  | add v' p a =>
    have hv : v' ≠ v := by simpa [TLB.supersedes] using hsup
    have hstep : TLB.step n s (.add v' p a) =
        (⟨v', p, a⟩ : TLBEntry) ::
          (if (TLB.eraseV v' s).length = n then (TLB.eraseV v' s).dropLast
           else TLB.eraseV v' s) := rfl
    by_cases hlen : (TLB.eraseV v' s).length = n
    · cases hfd : TLB.findV v ((TLB.eraseV v' s).dropLast) with
      | none =>
        right
        refine ⟨⟨v', p, a, rfl, hv⟩, ?_⟩
        rw [hstep, TLB.findV_cons_neg hv, if_pos hlen, hfd]
      | some x =>
        left
        have hx := TLB.findV_mem hfd
        have hxs : x ∈ s :=
          TLB.mem_eraseV ((List.dropLast_sublist _).mem hx.1)
        have hxe : x = e := TLB.uniq_v_unique hu h hxs hx.2
        rw [hstep, TLB.findV_cons_neg hv, if_pos hlen, hfd, hxe]
    · left
      rw [hstep, TLB.findV_cons_neg hv, if_neg hlen,
          TLB.findV_eraseV_ne hv, h]
  | look v2 a2 =>
    left
    show TLB.findV v (TLB.lookupState s v2 a2) = some e
    unfold TLB.lookupState
    cases hf : TLB.findV v2 s with
    | none => exact h
    | some e2 =>
      show TLB.findV v (if e2.asid = a2 then e2 :: TLB.eraseV v2 s else s) = some e
      by_cases ha2 : e2.asid = a2
      · rw [if_pos ha2]
        by_cases hv2 : v2 = v
        · subst hv2
          have he2 : e2 = e := by
            rw [hf] at h
            exact Option.some.inj h
          subst he2
          exact TLB.findV_cons_pos (TLB.findV_mem hf).2
        · have he2v : e2.virtualAddress ≠ v := by
            rw [(TLB.findV_mem hf).2]
            exact hv2
          rw [TLB.findV_cons_neg he2v, TLB.findV_eraseV_ne hv2, h]
      · rw [if_neg ha2]
        exact h
  | flushAll => exact absurd hsup (by simp [TLB.supersedes])
  | flushASID a =>
    left
    have hne : a ≠ e.asid := by simpa [TLB.supersedes] using hsup
    show TLB.findV v (s.filter (fun e => e.asid != a)) = some e
    have hm := TLB.findV_mem h
    have hmf : e ∈ s.filter (fun e => e.asid != a) :=
      List.mem_filter.mpr ⟨hm.1, by simpa using Ne.symm hne⟩
    have hufil : TLB.uniqV (s.filter (fun e => e.asid != a)) :=
      List.Pairwise.sublist (List.filter_sublist s) hu
    exact TLB.findV_of_mem_uniq hufil hmf hm.2

/-- Absence of an entry for `v` is preserved by any operation that is not an
add on `v`. -/
theorem TLB.step_findV_none {n : Nat} {s : List TLBEntry} {op : TLBOp}
    {v : Nat} (hnadd : TLB.isAddOn v op = false)
    (h : TLB.findV v s = none) : TLB.findV v (TLB.step n s op) = none := by
  have hall : ∀ e ∈ s, e.virtualAddress ≠ v := fun e he => by
    simpa using List.find?_eq_none.mp h e he
  refine List.find?_eq_none.mpr ?_
  intro x hx
  simp only [beq_iff_eq]
  cases op with
  | add v' p a =>
    have hv : v' ≠ v := by simpa [TLB.isAddOn] using hnadd
    have hx' : x = (⟨v', p, a⟩ : TLBEntry) ∨
        x ∈ (if (TLB.eraseV v' s).length = n then (TLB.eraseV v' s).dropLast
             else TLB.eraseV v' s) := List.mem_cons.mp hx
    rcases hx' with rfl | hx2
    · exact hv
    · have hsub : (if (TLB.eraseV v' s).length = n then (TLB.eraseV v' s).dropLast
          else TLB.eraseV v' s).Sublist (TLB.eraseV v' s) := by
        split
        · exact List.dropLast_sublist _
        · exact List.Sublist.refl _
      exact hall x (TLB.mem_eraseV (hsub.mem hx2))
  | look v2 a2 =>
    have hx2 : x ∈ TLB.lookupState s v2 a2 := hx
    unfold TLB.lookupState at hx2
    revert hx2
    cases hf : TLB.findV v2 s with
    | none => exact fun hx2 => hall x hx2
    | some e2 =>
      show x ∈ (if e2.asid = a2 then e2 :: TLB.eraseV v2 s else s) →
        x.virtualAddress ≠ v
      by_cases ha2 : e2.asid = a2
      · rw [if_pos ha2]
        intro hx2
        rcases List.mem_cons.mp hx2 with rfl | hx3
        · exact hall x (TLB.findV_mem hf).1
        · exact hall x (TLB.mem_eraseV hx3)
      · rw [if_neg ha2]
        exact fun hx2 => hall x hx2
  | flushAll => cases hx
  | flushASID a => exact hall x (List.mem_filter.mp hx).1

/-- A non-superseding trace contains no add on `v`. -/
theorem TLB.noSupersede_noAdd {v a : Nat} {t : List TLBOp}
    (h : TLB.noSupersede v a t = true) :
    t.all (fun op => ! TLB.isAddOn v op) = true := by
  rw [TLB.noSupersede, List.all_eq_true] at h
  rw [List.all_eq_true]
  intro op hop
  have := h op hop
  cases op with
  | add v' p a' => simpa [TLB.isAddOn, TLB.supersedes] using this
  | look v' a' => rfl
  | flushAll => rfl
  | flushASID a' => rfl

/-- Once absent, an entry for `v` stays absent along a trace without adds
on `v`. -/
theorem TLB.runFrom_findV_none {n v : Nat} (t : List TLBOp) (s : List TLBEntry)
    (hne : t.all (fun op => ! TLB.isAddOn v op) = true)
    (h : TLB.findV v s = none) : TLB.findV v (TLB.runFrom n s t) = none := by
  induction t generalizing s with
  | nil => exact h
  | cons op t ih =>
    rw [List.all_cons, Bool.and_eq_true] at hne
    exact ih _ hne.2 (TLB.step_findV_none (by simpa using hne.1) h)

/-- Along a non-superseding trace, a present entry keeps its exact content
or disappears. -/
theorem TLB.runFrom_findV_clean {n v p a : Nat} (t : List TLBOp)
    (s : List TLBEntry) (hu : TLB.uniqV s)
    (hc : TLB.noSupersede v a t = true)
    (h : TLB.findV v s = some ⟨v, p, a⟩) :
    TLB.findV v (TLB.runFrom n s t) = some ⟨v, p, a⟩ ∨
    TLB.findV v (TLB.runFrom n s t) = none := by
  induction t generalizing s with
  | nil => exact Or.inl h
  | cons op t ih =>
    rw [TLB.noSupersede, List.all_cons, Bool.and_eq_true] at hc
    have hop : TLB.supersedes v a op = false := by simpa using hc.1
    rcases TLB.step_findV_clean (n := n) hu hop h with hsome | ⟨_, hnone⟩
    · exact ih _ (TLB.uniq_step hu) hc.2 hsome
    · right
      exact TLB.runFrom_findV_none t _ (TLB.noSupersede_noAdd hc.2) hnone

/-- Along a non-superseding trace without adds on other pages, a present
entry survives with its exact content. -/
theorem TLB.runFrom_findV_keep {n v p a : Nat} (t : List TLBOp)
    (s : List TLBEntry) (hu : TLB.uniqV s)
    (hc : TLB.noSupersede v a t = true)
    (hno : TLB.hasOtherAdd v t = false)
    (h : TLB.findV v s = some ⟨v, p, a⟩) :
    TLB.findV v (TLB.runFrom n s t) = some ⟨v, p, a⟩ := by
  induction t generalizing s with
  | nil => exact h
  | cons op t ih =>
    rw [TLB.noSupersede, List.all_cons, Bool.and_eq_true] at hc
    rw [TLB.hasOtherAdd, List.any_cons, Bool.or_eq_false_iff] at hno
    have hop : TLB.supersedes v a op = false := by simpa using hc.1
    rcases TLB.step_findV_clean (n := n) hu hop h with hsome | ⟨⟨v', p', a', rfl, hvne⟩, _⟩
    · exact ih _ (TLB.uniq_step hu) hc.2 hno.2 hsome
    · exact absurd hno.1 (by simpa using hvne)

/-- Presence of an entry after a trace decomposes the trace: the entry was
installed by a final non-superseded add, or was present from the start and
never superseded. -/
theorem TLB.runFrom_findV_decomp {n v : Nat} {e : TLBEntry} (t : List TLBOp)
    (s : List TLBEntry) (hu : TLB.uniqV s)
    (h : TLB.findV v (TLB.runFrom n s t) = some e) :
    (∃ t₁ t₂, t = t₁ ++ TLBOp.add v e.physicalAddress e.asid :: t₂ ∧
      TLB.noSupersede v e.asid t₂ = true) ∨
    (TLB.findV v s = some e ∧ TLB.noSupersede v e.asid t = true) := by
  induction t generalizing s with
  | nil => exact Or.inr ⟨h, rfl⟩
  | cons op t ih =>
    rcases ih _ (TLB.uniq_step hu) h with ⟨t₁, t₂, rfl, hc⟩ | ⟨hpres, hc⟩
    · exact Or.inl ⟨op :: t₁, t₂, rfl, hc⟩
    · rcases TLB.step_findV_back hu hpres with ⟨p, a, rfl, rfl⟩ | ⟨hs, hsup⟩
      · exact Or.inl ⟨[], t, rfl, hc⟩
      · refine Or.inr ⟨hs, ?_⟩
        rw [TLB.noSupersede, List.all_cons, Bool.and_eq_true]
        exact ⟨by simpa using hsup, hc⟩

/-- Unfolds the lookup result through a known cache find. -/
theorem TLB.lookupRes_eq {s : List TLBEntry} {v a : Nat} {e : TLBEntry}
    (hf : TLB.findV v s = some e) :
    TLB.lookupRes s v a = if e.asid = a then some e.physicalAddress else none := by
  unfold TLB.lookupRes
  rw [hf]

/-- Unfolds the lookup state transformer through a known cache find. -/
theorem TLB.lookupState_eq {s : List TLBEntry} {v a : Nat} {e : TLBEntry}
    (hf : TLB.findV v s = some e) :
    TLB.lookupState s v a = if e.asid = a then e :: TLB.eraseV v s else s := by
  unfold TLB.lookupState
  rw [hf]

/-- C3: starting from an empty TLB of capacity `n ≥ 1`, `lookup(asid, v)`
hits with `p` exactly when the trace ends in an `add(v, p, asid)` that no
later add on `v`, flush, or `flushASID(asid)` superseded and whose entry is
still resident (the only other way it can die, shown by the second
conjunct, is an LRU eviction caused by adds to other virtual pages); a hit
requires the entry's ASID to equal the lookup ASID, and a hit moves the
entry to the MRU (front) position. -/
theorem tlb_lookup_characterization (n : Nat) (ops : List TLBOp) (v p asid : Nat)
    (hn : 1 ≤ n) :
    (TLB.lookupRes (TLB.run n ops) v asid = some p ↔
      (∃ t₁ t₂, ops = t₁ ++ TLBOp.add v p asid :: t₂ ∧
        TLB.noSupersede v asid t₂ = true ∧
        (TLB.findV v (TLB.run n ops)).isSome = true)) ∧
    (∀ t₁ t₂, ops = t₁ ++ TLBOp.add v p asid :: t₂ →
      TLB.noSupersede v asid t₂ = true →
      TLB.findV v (TLB.run n ops) = none →
      TLB.hasOtherAdd v t₂ = true) ∧
    (TLB.lookupRes (TLB.run n ops) v asid = some p →
      (TLB.lookupState (TLB.run n ops) v asid).head? = some ⟨v, p, asid⟩) ∧
    (∀ e, TLB.findV v (TLB.run n ops) = some e → e.asid ≠ asid →
      TLB.lookupRes (TLB.run n ops) v asid = none) := by
  have hu : TLB.uniqV (TLB.run n ops) := TLB.uniq_run n ops
  have hitForm : ∀ q, TLB.lookupRes (TLB.run n ops) v q = some p →
      TLB.findV v (TLB.run n ops) = some ⟨v, p, q⟩ := by
    intro q h
    cases hf : TLB.findV v (TLB.run n ops) with
    | none => rw [TLB.lookupRes, hf] at h; cases h
    | some e =>
      rw [TLB.lookupRes_eq hf] at h
      by_cases ha : e.asid = q
      · rw [if_pos ha] at h
        have hp : e.physicalAddress = p := Option.some.inj h
        have hv : e.virtualAddress = v := (TLB.findV_mem hf).2
        have he : e = ⟨v, p, q⟩ := by
          cases e
          simp_all
        rw [← he]
      · rw [if_neg ha] at h; cases h
  refine ⟨⟨?_, ?_⟩, ?_, ?_, ?_⟩
  · intro h
    have hf := hitForm asid h
    rcases TLB.runFrom_findV_decomp ops [] List.Pairwise.nil hf with
      ⟨t₁, t₂, heq, hc⟩ | ⟨hin, _⟩
    · exact ⟨t₁, t₂, heq, hc, by rw [hf]; rfl⟩
    · cases hin
  · rintro ⟨t₁, t₂, rfl, hc, hpres⟩
    have hsplit : TLB.run n (t₁ ++ TLBOp.add v p asid :: t₂) =
        TLB.runFrom n (TLB.step n (TLB.run n t₁) (TLBOp.add v p asid)) t₂ := by
      unfold TLB.run TLB.runFrom
      rw [List.foldl_append]
      rfl
    have hu1 : TLB.uniqV (TLB.step n (TLB.run n t₁) (TLBOp.add v p asid)) :=
      TLB.uniq_step (TLB.uniq_run n t₁)
    have hstart : TLB.findV v (TLB.step n (TLB.run n t₁) (TLBOp.add v p asid)) =
        some ⟨v, p, asid⟩ :=
      TLB.findV_cons_pos (a := ⟨v, p, asid⟩) rfl
    rcases TLB.runFrom_findV_clean t₂ _ hu1 hc hstart with hsome | hnone
    · rw [TLB.lookupRes, hsplit, hsome]
      simp
    · rw [hsplit] at hpres
      rw [hnone] at hpres
      cases hpres
  · intro t₁ t₂ hops hc hnone
    cases hoa : TLB.hasOtherAdd v t₂ with
    | true => rfl
    | false =>
      subst hops
      have hsplit : TLB.run n (t₁ ++ TLBOp.add v p asid :: t₂) =
          TLB.runFrom n (TLB.step n (TLB.run n t₁) (TLBOp.add v p asid)) t₂ := by
        unfold TLB.run TLB.runFrom
        rw [List.foldl_append]
        rfl
      have hu1 : TLB.uniqV (TLB.step n (TLB.run n t₁) (TLBOp.add v p asid)) :=
        TLB.uniq_step (TLB.uniq_run n t₁)
      have hstart : TLB.findV v (TLB.step n (TLB.run n t₁) (TLBOp.add v p asid)) =
          some ⟨v, p, asid⟩ :=
        TLB.findV_cons_pos (a := ⟨v, p, asid⟩) rfl
      have := TLB.runFrom_findV_keep (n := n) t₂ _ hu1 hc hoa hstart
      rw [hsplit, this] at hnone
      cases hnone
  · intro h
    have hf := hitForm asid h
    rw [TLB.lookupState_eq hf, if_pos rfl]
    rfl
  · intro e hf hne
    rw [TLB.lookupRes_eq hf, if_neg hne]

/-- Witness for the characterization: after a single `add(5, 7, 0)` on a
capacity-1 TLB, `lookup(0, 5)` hits and returns `7`. -/
theorem tlb_lookup_characterization_witness :
    TLB.lookupRes (TLB.run 1 [TLBOp.add 5 7 0]) 5 0 = some 7 :=
  ((tlb_lookup_characterization 1 [TLBOp.add 5 7 0] 5 7 0 (by decide)).1).mpr
    ⟨[], [], rfl, by decide, by decide⟩

/-- C4: after any operation sequence the TLB never holds two entries for the
same virtual page (even under different ASIDs); an add for a present page
replaces the old entry (most recent writer wins); and such a replacing add
evicts no other entry. -/
theorem tlb_uniqueness (n : Nat) (ops : List TLBOp) (v p asid : Nat) :
    TLB.uniqV (TLB.run n ops) ∧
    (∀ e ∈ TLB.addEntry n (TLB.run n ops) v p asid, e.virtualAddress = v →
      e = ⟨v, p, asid⟩) ∧
    (1 ≤ n → (TLB.findV v (TLB.run n ops)).isSome = true →
      ∀ e ∈ TLB.run n ops, e.virtualAddress ≠ v →
        e ∈ TLB.addEntry n (TLB.run n ops) v p asid) := by
  have hu : TLB.uniqV (TLB.run n ops) := TLB.uniq_run n ops
  refine ⟨hu, ?_, ?_⟩
  · intro e he hev
    have he' : e = (⟨v, p, asid⟩ : TLBEntry) ∨
        e ∈ (if (TLB.eraseV v (TLB.run n ops)).length = n
             then (TLB.eraseV v (TLB.run n ops)).dropLast
             else TLB.eraseV v (TLB.run n ops)) := List.mem_cons.mp he
    rcases he' with rfl | he2
    · rfl
    · have hsub : (if (TLB.eraseV v (TLB.run n ops)).length = n
          then (TLB.eraseV v (TLB.run n ops)).dropLast
          else TLB.eraseV v (TLB.run n ops)).Sublist
            (TLB.eraseV v (TLB.run n ops)) := by
        split
        · exact List.dropLast_sublist _
        · exact List.Sublist.refl _
      exact absurd hev (TLB.eraseV_no_v hu e (hsub.mem he2))
  · intro hn hpres e he hev
    have hlen : (TLB.run n ops).length ≤ n := TLB.length_run_le hn ops
    cases hfind : TLB.findV v (TLB.run n ops) with
    | none => rw [hfind] at hpres; cases hpres
    | some e0 =>
      have hm0 := TLB.findV_mem hfind
      have hle : (TLB.eraseV v (TLB.run n ops)).length =
          (TLB.run n ops).length - 1 :=
        List.length_eraseP_of_mem hm0.1 (by simpa using hm0.2)
      have hpos : 1 ≤ (TLB.run n ops).length :=
        List.length_pos.mpr (List.ne_nil_of_mem hm0.1)
      have hne : (TLB.eraseV v (TLB.run n ops)).length ≠ n := by omega
      show e ∈ (⟨v, p, asid⟩ : TLBEntry) ::
        (if (TLB.eraseV v (TLB.run n ops)).length = n
         then (TLB.eraseV v (TLB.run n ops)).dropLast
         else TLB.eraseV v (TLB.run n ops))
      rw [if_neg hne]
      exact List.mem_cons_of_mem _ (TLB.mem_eraseV_of_ne he hev)

/-- Witness for the uniqueness theorem: with capacity 2 and entries for
pages 3 and 5 resident, re-adding page 5 keeps page 3's entry. -/
theorem tlb_uniqueness_witness :
    (⟨3, 4, 0⟩ : TLBEntry) ∈
      TLB.addEntry 2 (TLB.run 2 [TLBOp.add 3 4 0, TLBOp.add 5 7 0]) 5 9 0 :=
  (tlb_uniqueness 2 [TLBOp.add 3 4 0, TLBOp.add 5 7 0] 5 9 0).2.2
    (by decide) (by decide) ⟨3, 4, 0⟩ (by decide) (by decide)

/-! ## Allocator scenario S5 and out-of-memory behavior -/

/-- C1 counterexample: on the hole-list allocator of the repository, after
the S5 setup and `allocatePages(3) = a0`, the following `allocatePages(2)`
returns `a2` (page 10) — not the 2-page tail at `a0 + 3 * pageSize` claimed
by the specification, because `splitHole` appends the remainder at the tail
of the hole list. -/
theorem s5_allocate2_returns_a2 :
    (PhysMemManager.allocatePages PhysMemManager.s5Holes 3).1 = some physMemBase ∧
    (PhysMemManager.allocatePages PhysMemManager.s5After3 2).1 =
      some (physMemBase + 10 * 4096) ∧
    (PhysMemManager.allocatePages PhysMemManager.s5After3 2).1 ≠
      some (physMemBase + 3 * 4096) := by
  refine ⟨by decide, by decide, by decide⟩

/-- C1 amended: in S5, `allocatePages(3)` returns `a0` on both allocators
and leaves a 2-page remainder hole at page 3; the hole-list allocator
appends that remainder at the tail of its list, so its `allocatePages(2)`
returns `a2`, while the bitmap allocator's sequential first-fit scan
returns the remainder `a0 + 3 * pageSize`, as the specification pinned. -/
theorem s5_first_fit_split :
    (PhysMemManager.allocatePages PhysMemManager.s5Holes 3).1 = some physMemBase ∧
    PhysMemManager.s5After3.holes = [(10, 5), (20, 5), (3, 2)] ∧
    (PhysMemManager.allocatePages PhysMemManager.s5After3 2).1 =
      some (physMemBase + 10 * 4096) ∧
    (BitmapPMM.allocatePages BitmapPMM.s5Holes 3).1 = some physMemBase ∧
    (BitmapPMM.allocatePages BitmapPMM.s5After3 2).1 =
      some (physMemBase + 3 * 4096) := by
  refine ⟨by decide, by decide, by decide, by decide, by decide⟩

/-- C2: the global-state TLB sketch is not instance-scoped. On fresh
globals a lookup of page 5 through instance B misses, but after instance A
adds `(5, 7)` the same lookup through B hits and returns 7: an operation on
one instance changes another instance's lookup results. -/
theorem gtlb_instances_interfere :
    (GTLB.lookup (GTLB.mkInst 4) GTLB.freshGlobal 5).1 = none ∧
    (GTLB.lookup (GTLB.mkInst 4)
      (GTLB.add (GTLB.mkInst 4) GTLB.freshGlobal 5 7).2 5).1 = some 7 := by
  refine ⟨by decide, by decide⟩

/-- C9: `allocatePageTable` performs no duplicate-PID check; a second call
for PID 7 succeeds and silently replaces the recorded root (16384 becomes
32768), leaking the first tree, where the specification mandates a fatal
abort. -/
theorem allocatePageTable_duplicate_pid_replaces :
    PT.mapFind (AArch64MMUDriver.allocatePageTable PT.initState 7).pageTables 7 =
      some 16384 ∧
    PT.mapFind (AArch64MMUDriver.allocatePageTable
      (AArch64MMUDriver.allocatePageTable PT.initState 7) 7).pageTables 7 =
      some 32768 ∧
    (16384 : Nat) ≠ 32768 := by
  refine ⟨by decide, by decide, by decide⟩

/-- The hole-list first-fit search fails exactly when every hole is too
small. -/
theorem PhysMemManager.findFit_eq_none_iff (holes : List (Nat × Nat)) (count : Nat) :
    PhysMemManager.findFit holes count = none ↔ ∀ h ∈ holes, h.2 < count := by
  induction holes with
  | nil => simp [PhysMemManager.findFit]
  | cons h t ih =>
    by_cases hc : count ≤ h.2
    · simp [PhysMemManager.findFit, if_pos hc]
      omega
    · simp only [PhysMemManager.findFit, if_neg hc, Option.map_eq_none', ih,
        List.mem_cons, forall_eq_or_imp]
      constructor
      · intro hall
        exact ⟨by omega, hall⟩
      · intro hall
        exact hall.2

/-- C8: `allocatePages(count)` on the hole-list allocator fails exactly when
`nAllocatedPages + count > nPages` or no single hole has `count` pages; a
failed allocation leaves the allocator state unchanged; and, concretely,
after exhausting a 3-page memory a 1-page allocation fails but succeeds
again once the pages are released. -/
theorem allocatePages_oom_characterization :
    ∀ (st : PMState) (count : Nat),
      ((PhysMemManager.allocatePages st count).1 = none ↔
        (st.nPages < st.nAllocatedPages + count ∨ ∀ h ∈ st.holes, h.2 < count)) ∧
      ((PhysMemManager.allocatePages st count).1 = none →
        (PhysMemManager.allocatePages st count).2 = st) ∧
      ((PhysMemManager.allocatePages
          (PhysMemManager.mk physMemBase 4096 (3 * 4096)) 3).1 =
        some physMemBase ∧
       (PhysMemManager.allocatePages
          (PhysMemManager.allocStep (PhysMemManager.mk physMemBase 4096 (3 * 4096)) 3)
          1).1 = none ∧
       (PhysMemManager.allocatePages
          (PhysMemManager.releasePages
            (PhysMemManager.allocStep (PhysMemManager.mk physMemBase 4096 (3 * 4096)) 3)
            physMemBase 3)
          1).1 = some physMemBase) := by
  intro st count
  refine ⟨?_, ?_, by decide, by decide, by decide⟩
  · unfold PhysMemManager.allocatePages
    by_cases h1 : st.nPages < st.nAllocatedPages + count
    · simp [if_pos h1, h1]
    · rw [if_neg h1]
      cases hf : PhysMemManager.findFit st.holes count with
      | none =>
        have hall := (PhysMemManager.findFit_eq_none_iff st.holes count).mp hf
        exact ⟨fun _ => Or.inr hall, fun _ => rfl⟩
      | some i =>
        have hex : ¬ ∀ h ∈ st.holes, h.2 < count := by
          intro hall
          rw [(PhysMemManager.findFit_eq_none_iff st.holes count).mpr hall] at hf
          cases hf
        constructor
        · intro hcon
          have hcon' : (some (st.base + (st.holes.getD i (0, 0)).1 * st.pageSize) :
              Option Nat) = none := hcon
          cases hcon'
        · intro hrhs
          rcases hrhs with h | h
          · exact (h1 h).elim
          · exact (hex h).elim
  · unfold PhysMemManager.allocatePages
    by_cases h1 : st.nPages < st.nAllocatedPages + count
    · rw [if_pos h1]
      intro _
      rfl
    · rw [if_neg h1]
      cases hf : PhysMemManager.findFit st.holes count with
      | none => intro _; rfl
      | some i => intro hcon; cases hcon

/-- Witness for the out-of-memory characterization: the failed 1-page
allocation on the exhausted 3-page memory leaves the state unchanged. -/
theorem allocatePages_oom_characterization_witness :
    (PhysMemManager.allocatePages
      (PhysMemManager.allocStep (PhysMemManager.mk physMemBase 4096 (3 * 4096)) 3)
      1).2 =
    PhysMemManager.allocStep (PhysMemManager.mk physMemBase 4096 (3 * 4096)) 3 :=
  (allocatePages_oom_characterization
    (PhysMemManager.allocStep (PhysMemManager.mk physMemBase 4096 (3 * 4096)) 3)
    1).2.1 (by decide)

/-! ## Walker frame and stamping properties -/

/-- C7: a failing walk returns false and leaves every table entry at every
level unchanged; concretely, on the fresh all-zero L0 table of PID 1 the
translations of virtual pages 0, 1 and 0xFFFF all fail without mutating
memory. -/
theorem performTranslation_failure_frame :
    (∀ (m : PTMem) (root vPage : Nat) (w b : Bool) (p : Nat) (m' : PTMem),
      AArch64MMU.performTranslation m root vPage w = some (b, p, m') →
      b = false → m' = m) ∧
    AArch64MMU.performTranslation PT.s1State.mem 16384 0 false =
      some (false, 0, PT.s1State.mem) ∧
    AArch64MMU.performTranslation PT.s1State.mem 16384 1 false =
      some (false, 0, PT.s1State.mem) ∧
    AArch64MMU.performTranslation PT.s1State.mem 16384 0xFFFF false =
      some (false, 0, PT.s1State.mem) := by
  refine ⟨?_, rfl, rfl, rfl⟩
  intro m root vPage w b p m' h hb
  subst hb
  simp only [AArch64MMU.performTranslation] at h
  split at h
  · cases h
  · split at h
    · simp only [Option.some.injEq, Prod.mk.injEq] at h
      exact h.2.2.symm
    · split at h
      · simp only [Option.some.injEq, Prod.mk.injEq] at h
        exact h.2.2.symm
      · split at h
        · simp only [Option.some.injEq, Prod.mk.injEq] at h
          exact h.2.2.symm
        · split at h
          · simp only [Option.some.injEq, Prod.mk.injEq] at h
            exact h.2.2.symm
          · simp only [Option.some.injEq, Prod.mk.injEq] at h
            exact absurd h.1 (by simp)

/-- Witness: the failure-frame law applied to the concrete empty-table
translation of virtual page 0. -/
theorem performTranslation_failure_frame_witness :
    (AArch64MMU.performTranslation PT.s1State.mem 16384 0 false).map
      (fun r => r.2.2 16384 0) = some (PT.s1State.mem 16384 0) := by
  have h := performTranslation_failure_frame.1 PT.s1State.mem 16384 0 false
    false 0 PT.s1State.mem performTranslation_failure_frame.2.1 rfl
  rw [performTranslation_failure_frame.2.1]
  rfl

/-- C6: a successful walk returns the physical page stored in the reached
L3 leaf, sets that leaf's referenced bit, sets its dirty bit exactly when
the old dirty bit was set or the access is a write (so a read leaves dirty
at its previous value), and changes no other entry; concretely, for the
installed mapping `0x12345 → 0xABCDE` a read translation returns `0xABCDE`
with `referenced = 1, dirty = 0`, and the subsequent write translation sets
`dirty = 1`. -/
theorem performTranslation_success_stamps :
    (∀ (m : PTMem) (root vPage : Nat) (w : Bool) (p : Nat) (m' : PTMem),
      AArch64MMU.performTranslation m root vPage w = some (true, p, m') →
      ∃ a, (m a (PT.l3Index (vPage <<< 14))).valid = true ∧
        p = (m a (PT.l3Index (vPage <<< 14))).physicalPageNum ∧
        m' = PT.writeE m a (PT.l3Index (vPage <<< 14))
          { m a (PT.l3Index (vPage <<< 14)) with
            referenced := true,
            dirty := if w then true
                     else (m a (PT.l3Index (vPage <<< 14))).dirty } ∧
        (m' a (PT.l3Index (vPage <<< 14))).referenced = true ∧
        (m' a (PT.l3Index (vPage <<< 14))).dirty =
          (w || (m a (PT.l3Index (vPage <<< 14))).dirty) ∧
        ∀ b j, ¬ (b = a ∧ j = PT.l3Index (vPage <<< 14)) → m' b j = m b j) ∧
    PT.s2Walk1.map (fun r => (r.1, r.2.1)) = some (true, 0xABCDE) ∧
    (PT.s2Mem1 65536 837).referenced = true ∧
    (PT.s2Mem1 65536 837).dirty = false ∧
    PT.s2Walk2.map (fun r => (r.1, r.2.1)) = some (true, 0xABCDE) ∧
    ((PT.s2Walk2.map (fun r => r.2.2)).getD PT.s2Mem1 65536 837).dirty = true := by
  refine ⟨?_, by decide, by decide, by decide, by decide, by decide⟩
  intro m root vPage w p m' h
  simp only [AArch64MMU.performTranslation] at h
  split at h
  · cases h
  · split at h
    · simp only [Option.some.injEq, Prod.mk.injEq] at h
      exact absurd h.1 (by simp)
    · split at h
      · simp only [Option.some.injEq, Prod.mk.injEq] at h
        exact absurd h.1 (by simp)
      · split at h
        · simp only [Option.some.injEq, Prod.mk.injEq] at h
          exact absurd h.1 (by simp)
        · split at h
          · simp only [Option.some.injEq, Prod.mk.injEq] at h
            exact absurd h.1 (by simp)
          · simp only [Option.some.injEq, Prod.mk.injEq] at h
            rename_i hval
            obtain ⟨-, hp, hm⟩ := h
            refine ⟨PT.getAddress (m (PT.getAddress (m (PT.getAddress
              (m root (PT.l0Index (vPage <<< 14)))) (PT.l1Index (vPage <<< 14))))
              (PT.l2Index (vPage <<< 14))), ?_, hp.symm, hm.symm, ?_, ?_, ?_⟩
            · simpa using hval
            · rw [← hm]
              simp [PT.writeE]
            · rw [← hm]
              cases w <;> simp [PT.writeE]
            · intro b j hbj
              rw [← hm]
              simp only [PT.writeE, if_neg hbj]

/-- Witness: the stamping law applied to the concrete S2 read translation:
the reached leaf has its referenced bit set afterwards. -/
theorem performTranslation_success_stamps_witness :
    ∃ a, (PT.s2Mem1 a (PT.l3Index (0x12345 <<< 14))).referenced = true := by
  obtain ⟨a, -, -, -, href, -, -⟩ :=
    performTranslation_success_stamps.1 PT.s2State.mem 16384 0x12345 false
      0xABCDE PT.s2Mem1 rfl
  exact ⟨a, href⟩

/-! ## Driver byte-counter accounting -/

/-- Lemma: `getOrCreateTable` adds one interior-table size to `bytesAllocated`
when it creates a table and nothing otherwise. -/
theorem PT.goc_bytes (st : DrvState) (parent index : Nat) :
    ∃ k, k ≤ 1 ∧
      ((AArch64MMUDriver.getOrCreateTable st parent index).2).bytesAllocated =
        st.bytesAllocated + 16384 * k := by
  unfold AArch64MMUDriver.getOrCreateTable AArch64MMUDriver.allocatePageTableLevel
  by_cases h : (st.mem parent index).valid = false
  · refine ⟨1, le_refl 1, ?_⟩
    rw [if_pos h]
  · rw [if_neg h]
    by_cases ht : (st.mem parent index).type
    · refine ⟨0, by omega, ?_⟩
      rw [if_pos ht]
      simp
    · refine ⟨0, by omega, ?_⟩
      rw [if_neg ht]
      simp

/-- Lemma: `setMapping` adds between zero and three interior-table sizes to
`bytesAllocated`. -/
theorem PT.setMapping_bytes (st : DrvState) (pid vA pA : Nat) :
    ∃ k, k ≤ 3 ∧
      ((AArch64MMUDriver.setMapping st pid vA pA).1).bytesAllocated =
        st.bytesAllocated + 16384 * k := by
  simp only [AArch64MMUDriver.setMapping]
  split
  · exact ⟨0, by omega, by simp⟩
  · rename_i root hfind
    obtain ⟨k1, hk1, hb1⟩ := PT.goc_bytes st root (PT.l0Index (vA % 2 ^ 48))
    split
    · rename_i st1 hg1
      rw [hg1] at hb1
      exact ⟨k1, by omega, by simpa using hb1⟩
    · rename_i l1 st1 hg1
      rw [hg1] at hb1
      obtain ⟨k2, hk2, hb2⟩ := PT.goc_bytes st1 l1 (PT.l1Index (vA % 2 ^ 48))
      split
      · rename_i st2 hg2
        rw [hg2] at hb2
        refine ⟨k1 + k2, by omega, ?_⟩
        simp only [] at hb1 hb2 ⊢
        omega
      · rename_i l2 st2 hg2
        rw [hg2] at hb2
        obtain ⟨k3, hk3, hb3⟩ := PT.goc_bytes st2 l2 (PT.l2Index (vA % 2 ^ 48))
        split
        · rename_i st3 hg3
          rw [hg3] at hb3
          refine ⟨k1 + k2 + k3, by omega, ?_⟩
          simp only [] at hb1 hb2 hb3 ⊢
          omega
        · rename_i l3 st3 hg3
          rw [hg3] at hb3
          refine ⟨k1 + k2 + k3, by omega, ?_⟩
          simp only [] at hb1 hb2 hb3 ⊢
          omega

/-- A single driver call never decreases `bytesAllocated`. -/
theorem PT.drvStep_bytes_mono (st : DrvState) (op : DrvOp) :
    st.bytesAllocated ≤ (PT.drvStep st op).bytesAllocated := by
  cases op with
  | allocPT pid =>
    show st.bytesAllocated ≤ (AArch64MMUDriver.allocatePageTable st pid).bytesAllocated
    simp only [AArch64MMUDriver.allocatePageTable]
    omega
  | setMap pid vA pA =>
    obtain ⟨k, -, hb⟩ := PT.setMapping_bytes st pid vA pA
    show st.bytesAllocated ≤ ((AArch64MMUDriver.setMapping st pid vA pA).1).bytesAllocated
    omega
  | releasePT pid =>
    show st.bytesAllocated ≤ (AArch64MMUDriver.releasePageTable st pid).bytesAllocated
    unfold AArch64MMUDriver.releasePageTable
    cases PT.mapFind st.pageTables pid <;> exact le_refl _
  | setValid a i b =>
    show st.bytesAllocated ≤ ((AArch64MMUDriver.setPageValid st a i b).1).bytesAllocated
    unfold AArch64MMUDriver.setPageValid
    by_cases h : (st.mem a i).valid = false ∧ b = true
    · rw [if_pos h]
    · rw [if_neg h]

/-- Replaying driver calls never decreases `bytesAllocated`. -/
theorem PT.drvRun_bytes_mono (ops : List DrvOp) (st : DrvState) :
    st.bytesAllocated ≤ (PT.drvRun st ops).bytesAllocated := by
  induction ops generalizing st with
  | nil => exact le_refl _
  | cons op t ih =>
    exact le_trans (PT.drvStep_bytes_mono st op) (ih (PT.drvStep st op))

/-- C10: the driver's `bytesAllocated` counter is monotonically
non-decreasing over every sequence of driver calls; `allocatePageTable`
adds the 16-byte L0 table size, `setMapping` adds one 16 KiB interior-table
size per level it creates (at most three), and `releasePageTable` frees the
tree without subtracting — the counter records cumulative bytes requested,
not bytes currently held. -/
theorem bytesAllocated_monotone :
    ∀ (st : DrvState) (ops more : List DrvOp) (pid vA pA : Nat),
      (PT.drvRun st ops).bytesAllocated ≤
        (PT.drvRun st (ops ++ more)).bytesAllocated ∧
      (AArch64MMUDriver.allocatePageTable st pid).bytesAllocated =
        st.bytesAllocated + 16 ∧
      (∃ k, k ≤ 3 ∧
        ((AArch64MMUDriver.setMapping st pid vA pA).1).bytesAllocated =
          st.bytesAllocated + 16384 * k) ∧
      (AArch64MMUDriver.releasePageTable st pid).bytesAllocated =
        st.bytesAllocated := by
  intro st ops more pid vA pA
  refine ⟨?_, rfl, PT.setMapping_bytes st pid vA pA, ?_⟩
  · have hsplit : PT.drvRun st (ops ++ more) = PT.drvRun (PT.drvRun st ops) more := by
      unfold PT.drvRun
      exact List.foldl_append _ _ _ _
    rw [hsplit]
    exact PT.drvRun_bytes_mono more (PT.drvRun st ops)
  · unfold AArch64MMUDriver.releasePageTable
    cases PT.mapFind st.pageTables pid <;> rfl

/-! ## Driver and walker: round trip (C5) support -/

/-- Right shift by the page bits is division by the page size. -/
theorem PT.shiftRight14_eq (x : Nat) : x >>> 14 = x / 16384 := by
  rw [Nat.shiftRight_eq_div_pow]

/-- Left shift by the page bits is multiplication by the page size. -/
theorem PT.shiftLeft14_eq (x : Nat) : x <<< 14 = x * 16384 := by
  rw [Nat.shiftLeft_eq]

/-- Clearing the page-offset bits does not change any index field at or
above the page bits. -/
theorem PT.index_shift_eq (x s : Nat) (hs : 14 ≤ s) :
    ((x >>> 14) <<< 14) >>> s = x >>> s := by
  rw [Nat.shiftRight_eq_div_pow, Nat.shiftRight_eq_div_pow,
      Nat.shiftRight_eq_div_pow, Nat.shiftLeft_eq]
  have h1 : (2 : Nat) ^ s = 2 ^ 14 * 2 ^ (s - 14) := by
    rw [← pow_add]
    congr 1
    omega
  rw [h1, ← Nat.div_div_eq_div_mul, ← Nat.div_div_eq_div_mul,
      Nat.mul_div_cancel _ (by norm_num)]

/-- The walker's L0 index of a page-aligned address equals the driver's. -/
theorem PT.l0Index_walk (vAddr : Nat) :
    PT.l0Index ((vAddr >>> 14) <<< 14) = PT.l0Index vAddr := by
  unfold PT.l0Index
  rw [PT.index_shift_eq _ 47 (by omega)]

/-- The walker's L1 index of a page-aligned address equals the driver's. -/
theorem PT.l1Index_walk (vAddr : Nat) :
    PT.l1Index ((vAddr >>> 14) <<< 14) = PT.l1Index vAddr := by
  unfold PT.l1Index
  rw [PT.index_shift_eq _ 36 (by omega)]

/-- The walker's L2 index of a page-aligned address equals the driver's. -/
theorem PT.l2Index_walk (vAddr : Nat) :
    PT.l2Index ((vAddr >>> 14) <<< 14) = PT.l2Index vAddr := by
  unfold PT.l2Index
  rw [PT.index_shift_eq _ 25 (by omega)]

/-- The walker's L3 index of a page-aligned address equals the driver's. -/
theorem PT.l3Index_walk (vAddr : Nat) :
    PT.l3Index ((vAddr >>> 14) <<< 14) = PT.l3Index vAddr := by
  unfold PT.l3Index
  rw [PT.index_shift_eq _ 14 (by omega)]

/-- A successful `pageTables` lookup is a member of the map. -/
theorem PT.mapFind_mem {l : List (Nat × Nat)} {k v : Nat}
    (h : PT.mapFind l k = some v) : (k, v) ∈ l := by
  unfold PT.mapFind at h
  cases hf : l.find? (fun p => p.1 == k) with
  | none => rw [hf] at h; cases h
  | some p =>
    rw [hf] at h
    have h' : some p.2 = some v := h
    have hp : p.1 = k := by simpa using List.find?_some hf
    have hm := List.mem_of_find?_eq_some hf
    have hv : p.2 = v := Option.some.inj h'
    have : (k, v) = p := by
      cases p
      simp_all
    rw [this]
    exact hm

/-- With distinct base addresses, each address has a unique level in the
allocation witness. -/
theorem PT.alloc_level_unique {alloc : List (Nat × Nat)}
    (hnd : (alloc.map Prod.fst).Nodup) {x i j : Nat}
    (hi : (x, i) ∈ alloc) (hj : (x, j) ∈ alloc) : i = j := by
  induction alloc with
  | nil => cases hi
  | cons q t ih =>
    rw [List.map_cons, List.nodup_cons] at hnd
    rcases List.mem_cons.mp hi with rfl | hit
    · rcases List.mem_cons.mp hj with heq | hjt
      · injection heq with h1 h2
        exact h2.symm
      · exact absurd (List.mem_map.mpr ⟨(x, j), hjt, rfl⟩) hnd.1
    · rcases List.mem_cons.mp hj with rfl | hjt
      · exact absurd (List.mem_map.mpr ⟨(x, i), hit, rfl⟩) hnd.1
      · exact ih hnd.2 hit hjt

/-- Tables recorded at different levels have different base addresses. -/
theorem PT.alloc_addr_ne {alloc : List (Nat × Nat)}
    (hnd : (alloc.map Prod.fst).Nodup) {x y i j : Nat}
    (hi : (x, i) ∈ alloc) (hj : (y, j) ∈ alloc) (hij : i ≠ j) : x ≠ y := by
  intro he
  exact hij (PT.alloc_level_unique hnd (he ▸ hi) hj)

/-- Specification of `getOrCreateTable` on well-formed states: it succeeds
with a level-`k+1` table, preserves well-formedness (possibly extending the
allocation witness by the freshly created table), leaves the parent slot a
valid table link to the returned table, does not touch `pageTables`, bumps
the allocation frontier by at most one page, and modifies no
already-allocated table other than the parent. -/
theorem PT.goc_spec (st : DrvState) (alloc : List (Nat × Nat))
    (parent k index : Nat) (hInv : PT.InvAlloc st alloc)
    (hnext : st.next < 2 ^ 34) (hmem : (parent, k) ∈ alloc) (hk : k < 3)
    (hidx : index < PT.tableEntries k) :
    ∃ a st' alloc',
      AArch64MMUDriver.getOrCreateTable st parent index = (some a, st') ∧
      PT.InvAlloc st' alloc' ∧
      (a, k + 1) ∈ alloc' ∧
      (∀ q ∈ alloc, q ∈ alloc') ∧
      (st'.mem parent index).valid = true ∧
      (st'.mem parent index).type = true ∧
      PT.getAddress (st'.mem parent index) = a ∧
      st'.pageTables = st.pageTables ∧
      st.next ≤ st'.next ∧ st'.next ≤ st.next + 1 ∧
      (∀ b j, b ≠ parent → b / 16384 < st.next → st'.mem b j = st.mem b j) := by
  obtain ⟨hnd, hone, hprops, hroots, hlinks⟩ := hInv
  have hentries_le : ∀ k', PT.tableEntries k' ≤ 2048 := by
    intro k'
    unfold PT.tableEntries
    split <;> omega
  by_cases hval : (st.mem parent index).valid = false
  · -- creation path: a fresh zeroed table is linked into the parent slot
    have haq : st.next * 16384 / 16384 = st.next :=
      Nat.mul_div_cancel _ (by norm_num)
    have ham : st.next * 16384 % 16384 = 0 := Nat.mul_mod_left _ _
    have hparq : parent % 16384 = 0 ∧ 1 ≤ parent / 16384 ∧
        parent / 16384 < st.next ∧ k ≤ 3 := hprops _ hmem
    have hpar_ne : parent ≠ st.next * 16384 := by
      intro he
      rw [he, haq] at hparq
      omega
    have hnotin : ∀ q ∈ alloc, q.1 ≠ st.next * 16384 := by
      intro q hq he
      have hq2 : q.1 % 16384 = 0 ∧ 1 ≤ q.1 / 16384 ∧
          q.1 / 16384 < st.next ∧ q.2 ≤ 3 := hprops _ hq
      rw [he, haq] at hq2
      omega
    have hppn : PT.initTableEntry (st.next * 16384) true =
        { valid := true, type := true, physicalPageNum := st.next,
          referenced := false, dirty := false } := by
      unfold PT.initTableEntry
      rw [PT.shiftRight14_eq, haq, Nat.mod_eq_of_lt hnext]
    have hgaddr : PT.getAddress (PT.initTableEntry (st.next * 16384) true) =
        st.next * 16384 := by
      rw [hppn]
      unfold PT.getAddress
      rw [PT.shiftLeft14_eq]
    refine ⟨st.next * 16384,
      ⟨PT.writeE (PT.zeroTable st.mem (st.next * 16384) 2048) parent index
         (PT.initTableEntry (st.next * 16384) true),
       st.pageTables, st.bytesAllocated + 2048 * 8, st.next + 1⟩,
      (st.next * 16384, k + 1) :: alloc, ?_, ?_, ?_, ?_, ?_, ?_, ?_, rfl, ?_, ?_, ?_⟩
    · unfold AArch64MMUDriver.getOrCreateTable AArch64MMUDriver.allocatePageTableLevel
      rw [if_pos hval]
    · refine ⟨?_, ?_, ?_, ?_, ?_⟩
      · rw [List.map_cons, List.nodup_cons]
        refine ⟨?_, hnd⟩
        intro hin
        obtain ⟨q, hq, hfst⟩ := List.mem_map.mp hin
        exact hnotin q hq hfst
      · show 1 ≤ st.next + 1
        omega
      · intro p hp
        rcases List.mem_cons.mp hp with rfl | hpa
        · refine ⟨ham, ?_, ?_, by omega⟩
          · show 1 ≤ st.next * 16384 / 16384
            rw [haq]
            omega
          · show st.next * 16384 / 16384 < st.next + 1
            rw [haq]
            omega
        · have hq2 : p.1 % 16384 = 0 ∧ 1 ≤ p.1 / 16384 ∧
              p.1 / 16384 < st.next ∧ p.2 ≤ 3 := hprops _ hpa
          refine ⟨hq2.1, hq2.2.1, ?_, hq2.2.2.2⟩
          show p.1 / 16384 < st.next + 1
          omega
      · intro pr hpr
        exact List.mem_cons_of_mem _ (hroots pr hpr)
      · intro p hp hkp i hi hvalid'
        have hmemdef : ∀ b j, (⟨PT.writeE (PT.zeroTable st.mem (st.next * 16384) 2048)
            parent index (PT.initTableEntry (st.next * 16384) true),
            st.pageTables, st.bytesAllocated + 2048 * 8, st.next + 1⟩ : DrvState).mem b j =
            (PT.writeE (PT.zeroTable st.mem (st.next * 16384) 2048) parent index
              (PT.initTableEntry (st.next * 16384) true)) b j := fun b j => rfl
        rw [hmemdef] at hvalid' ⊢
        rcases List.mem_cons.mp hp with heq | hpa
        · -- p is the freshly created table: all its entries are zero
          have hpa' : p.1 = st.next * 16384 := congrArg Prod.fst heq
          exfalso
          have hne : p.1 ≠ parent := by
            rw [hpa']
            exact fun he => hpar_ne he.symm
          have : (PT.writeE (PT.zeroTable st.mem (st.next * 16384) 2048) parent index
              (PT.initTableEntry (st.next * 16384) true)) p.1 i = PT.zeroEntry := by
            unfold PT.writeE PT.zeroTable
            rw [if_neg (by intro hc; exact hne hc.1)]
            rw [if_pos ⟨hpa', lt_of_lt_of_le hi (hentries_le _)⟩]
          rw [this] at hvalid'
          cases hvalid'
        · by_cases hpp : p.1 = parent ∧ i = index
          · -- the parent slot just written
            have hkpk : p.2 = k := by
              have : (parent, p.2) ∈ alloc := by
                have : p = (parent, p.2) := by
                  cases p
                  simp_all
                rw [← this]
                exact hpa
              exact PT.alloc_level_unique hnd this hmem
            have hval' : (PT.writeE (PT.zeroTable st.mem (st.next * 16384) 2048)
                parent index (PT.initTableEntry (st.next * 16384) true)) p.1 i =
                PT.initTableEntry (st.next * 16384) true := by
              unfold PT.writeE
              rw [if_pos hpp]
            rw [hval']
            rw [hppn]
            refine ⟨rfl, ?_⟩
            rw [show st.next <<< 14 = st.next * 16384 from PT.shiftLeft14_eq _]
            rw [hkpk]
            exact List.mem_cons_self _ _
          · -- untouched slot of an old table
            have hpne : p.1 ≠ st.next * 16384 := hnotin p hpa
            have hsame : (PT.writeE (PT.zeroTable st.mem (st.next * 16384) 2048)
                parent index (PT.initTableEntry (st.next * 16384) true)) p.1 i =
                st.mem p.1 i := by
              unfold PT.writeE PT.zeroTable
              rw [if_neg hpp]
              rw [if_neg (by intro hc; exact hpne hc.1)]
            rw [hsame] at hvalid' ⊢
            obtain ⟨ht, hc⟩ := hlinks p hpa hkp i hi hvalid'
            exact ⟨ht, List.mem_cons_of_mem _ hc⟩
    · exact List.mem_cons_self _ _
    · intro q hq
      exact List.mem_cons_of_mem _ hq
    · show (PT.writeE _ parent index (PT.initTableEntry (st.next * 16384) true)
        parent index).valid = true
      unfold PT.writeE
      rw [if_pos ⟨rfl, rfl⟩, hppn]
    · show (PT.writeE _ parent index (PT.initTableEntry (st.next * 16384) true)
        parent index).type = true
      unfold PT.writeE
      rw [if_pos ⟨rfl, rfl⟩, hppn]
    · show PT.getAddress (PT.writeE _ parent index
        (PT.initTableEntry (st.next * 16384) true) parent index) = st.next * 16384
      unfold PT.writeE
      rw [if_pos ⟨rfl, rfl⟩]
      exact hgaddr
    · show st.next ≤ st.next + 1
      omega
    · show st.next + 1 ≤ st.next + 1
      omega
    · intro b j hbp hbq
      have hbne : b ≠ st.next * 16384 := by
        intro he
        rw [he, haq] at hbq
        omega
      show (PT.writeE (PT.zeroTable st.mem (st.next * 16384) 2048) parent index
        (PT.initTableEntry (st.next * 16384) true)) b j = st.mem b j
      unfold PT.writeE PT.zeroTable
      rw [if_neg (by intro hc; exact hbp hc.1)]
      rw [if_neg (by intro hc; exact hbne hc.1)]
  · -- existing table link
    have hvalid : (st.mem parent index).valid = true := by
      revert hval
      cases (st.mem parent index).valid <;> simp
    obtain ⟨htype, hchild⟩ := hlinks _ hmem hk index hidx hvalid
    refine ⟨PT.getAddress (st.mem parent index), st, alloc, ?_,
      ⟨hnd, hone, hprops, hroots, hlinks⟩, hchild, fun q hq => hq,
      hvalid, htype, rfl, rfl, le_refl _, by omega, fun b j _ _ => rfl⟩
    unfold AArch64MMUDriver.getOrCreateTable
    rw [if_neg hval, if_pos htype]

/-- Computation of `setMapping` through known `getOrCreateTable` results. -/
theorem PT.setMapping_eq {st st1 st2 st3 : DrvState} {pid vA pA root a1 a2 a3 : Nat}
    (hfind : PT.mapFind st.pageTables pid = some root)
    (hg1 : AArch64MMUDriver.getOrCreateTable st root (PT.l0Index (vA % 2 ^ 48)) =
      (some a1, st1))
    (hg2 : AArch64MMUDriver.getOrCreateTable st1 a1 (PT.l1Index (vA % 2 ^ 48)) =
      (some a2, st2))
    (hg3 : AArch64MMUDriver.getOrCreateTable st2 a2 (PT.l2Index (vA % 2 ^ 48)) =
      (some a3, st3)) :
    AArch64MMUDriver.setMapping st pid vA pA =
      (⟨PT.writeE st3.mem a3 (PT.l3Index (vA % 2 ^ 48)) (PT.initTableEntry pA false),
        st3.pageTables, st3.bytesAllocated, st3.next⟩, true) := by
  simp only [AArch64MMUDriver.setMapping, hfind, hg1, hg2, hg3]

/-- C5: on a well-formed driver state, for every PID with an allocated page
table and every virtual address in the 48-bit space, `setMapping` succeeds
and the walker's translation of that address's virtual page on the PID's
root succeeds, returning `pPage.addr >> pageBits`. -/
theorem driver_walker_roundtrip :
    ∀ (st : DrvState) (pid root vA pA : Nat) (w : Bool),
      PT.Inv st →
      PT.mapFind st.pageTables pid = some root →
      pA < 2 ^ 48 →
      ∃ st', AArch64MMUDriver.setMapping st pid vA pA = (st', true) ∧
        st'.pageTables = st.pageTables ∧
        ∃ m', AArch64MMU.performTranslation st'.mem root ((vA % 2 ^ 48) >>> 14) w =
          some (true, pA >>> 14, m') := by
  intro st pid root vA pA w hI hfind hpa
  obtain ⟨alloc, hInv, hbud⟩ := hI
  have hroot : (root, 0) ∈ alloc := hInv.2.2.2.1 _ (PT.mapFind_mem hfind)
  have hi0 : PT.l0Index (vA % 2 ^ 48) < PT.tableEntries 0 := by
    unfold PT.l0Index PT.tableEntries
    simp
    omega
  have hi1 : PT.l1Index (vA % 2 ^ 48) < PT.tableEntries 1 := by
    unfold PT.l1Index PT.tableEntries
    simp
    omega
  have hi2 : PT.l2Index (vA % 2 ^ 48) < PT.tableEntries 2 := by
    unfold PT.l2Index PT.tableEntries
    simp
    omega
  obtain ⟨a1, st1, alloc1, hg1, hInv1, hm1, hsub1, hv1, ht1, ha1, hpt1, hn1l, hn1u, hfr1⟩ :=
    PT.goc_spec st alloc root 0 (PT.l0Index (vA % 2 ^ 48)) hInv (by omega) hroot
      (by omega) hi0
  obtain ⟨a2, st2, alloc2, hg2, hInv2, hm2, hsub2, hv2, ht2, ha2, hpt2, hn2l, hn2u, hfr2⟩ :=
    PT.goc_spec st1 alloc1 a1 1 (PT.l1Index (vA % 2 ^ 48)) hInv1 (by omega) hm1
      (by omega) hi1
  obtain ⟨a3, st3, alloc3, hg3, hInv3, hm3, hsub3, hv3, ht3, ha3, hpt3, hn3l, hn3u, hfr3⟩ :=
    PT.goc_spec st2 alloc2 a2 2 (PT.l2Index (vA % 2 ^ 48)) hInv2 (by omega) hm2
      (by omega) hi2
  have hroot3 : (root, 0) ∈ alloc3 := hsub3 _ (hsub2 _ (hsub1 _ hroot))
  have hm13 : (a1, 1) ∈ alloc3 := hsub3 _ (hsub2 _ hm1)
  have hm23 : (a2, 2) ∈ alloc3 := hsub3 _ hm2
  have hnd3 : (alloc3.map Prod.fst).Nodup := hInv3.1
  have hra1 : root ≠ a1 := PT.alloc_addr_ne hnd3 hroot3 hm13 (by omega)
  have hra2 : root ≠ a2 := PT.alloc_addr_ne hnd3 hroot3 hm23 (by omega)
  have hra3 : root ≠ a3 := PT.alloc_addr_ne hnd3 hroot3 hm3 (by omega)
  have ha13 : a1 ≠ a3 := PT.alloc_addr_ne hnd3 hm13 hm3 (by omega)
  have ha12 : a1 ≠ a2 := PT.alloc_addr_ne hnd3 hm13 hm23 (by omega)
  have ha23 : a2 ≠ a3 := PT.alloc_addr_ne hnd3 hm23 hm3 (by omega)
  have hrootprops : root % 16384 = 0 ∧ 1 ≤ root / 16384 ∧
      root / 16384 < st.next ∧ (0 : Nat) ≤ 3 := hInv.2.2.1 _ hroot
  have ha1props : a1 % 16384 = 0 ∧ 1 ≤ a1 / 16384 ∧
      a1 / 16384 < st1.next ∧ (1 : Nat) ≤ 3 := hInv1.2.2.1 _ hm1
  have halign : root % 16384 = 0 := hrootprops.1
  have hwE : ∀ b j, b ≠ a3 →
      PT.writeE st3.mem a3 (PT.l3Index (vA % 2 ^ 48)) (PT.initTableEntry pA false) b j =
        st3.mem b j := by
    intro b j hb
    unfold PT.writeE
    rw [if_neg (fun hc => hb hc.1)]
  have e0eq : PT.writeE st3.mem a3 (PT.l3Index (vA % 2 ^ 48))
      (PT.initTableEntry pA false) root (PT.l0Index (vA % 2 ^ 48)) =
      st1.mem root (PT.l0Index (vA % 2 ^ 48)) := by
    rw [hwE root _ hra3, hfr3 root _ hra2 (by omega), hfr2 root _ hra1 (by omega)]
  have e1eq : PT.writeE st3.mem a3 (PT.l3Index (vA % 2 ^ 48))
      (PT.initTableEntry pA false) a1 (PT.l1Index (vA % 2 ^ 48)) =
      st2.mem a1 (PT.l1Index (vA % 2 ^ 48)) := by
    rw [hwE a1 _ ha13, hfr3 a1 _ ha12 (by omega)]
  have e2eq : PT.writeE st3.mem a3 (PT.l3Index (vA % 2 ^ 48))
      (PT.initTableEntry pA false) a2 (PT.l2Index (vA % 2 ^ 48)) =
      st3.mem a2 (PT.l2Index (vA % 2 ^ 48)) := hwE a2 _ ha23
  have e3eq : PT.writeE st3.mem a3 (PT.l3Index (vA % 2 ^ 48))
      (PT.initTableEntry pA false) a3 (PT.l3Index (vA % 2 ^ 48)) =
      PT.initTableEntry pA false := by
    unfold PT.writeE
    rw [if_pos ⟨rfl, rfl⟩]
  have hppa : (pA >>> 14) % 2 ^ 34 = pA >>> 14 := by
    rw [PT.shiftRight14_eq]
    have : pA / 16384 < 2 ^ 34 := by omega
    exact Nat.mod_eq_of_lt this
  refine ⟨⟨PT.writeE st3.mem a3 (PT.l3Index (vA % 2 ^ 48)) (PT.initTableEntry pA false),
    st3.pageTables, st3.bytesAllocated, st3.next⟩,
    PT.setMapping_eq hfind hg1 hg2 hg3, ?_, ?_⟩
  · show st3.pageTables = st.pageTables
    rw [hpt3, hpt2, hpt1]
  · exact ⟨_, by
      show AArch64MMU.performTranslation
        (PT.writeE st3.mem a3 (PT.l3Index (vA % 2 ^ 48)) (PT.initTableEntry pA false))
        root ((vA % 2 ^ 48) >>> 14) w = _
      simp only [AArch64MMU.performTranslation, PT.l0Index_walk, PT.l1Index_walk,
        PT.l2Index_walk, PT.l3Index_walk, halign, e0eq, hv1, ht1]
      simp only [show PT.getAddress (st1.mem root (PT.l0Index (vA % 2 ^ 48))) = a1 from ha1,
        e1eq, hv2, ht2,
        show PT.getAddress (st2.mem a1 (PT.l1Index (vA % 2 ^ 48))) = a2 from ha2,
        e2eq, hv3, ht3,
        show PT.getAddress (st3.mem a2 (PT.l2Index (vA % 2 ^ 48))) = a3 from ha3,
        e3eq]
      simp [PT.initTableEntry, hppa]
      refine ⟨?_, rfl⟩
      rw [PT.shiftRight14_eq]
      omega⟩

/-- Witness: the round trip on the concrete state with one fresh page table
for PID 1 and the S2 mapping `0x12345 → 0xABCDE`. -/
theorem driver_walker_roundtrip_witness :
    ∃ st', AArch64MMUDriver.setMapping PT.s1State 1 (0x12345 <<< 14)
        (0xABCDE <<< 14) = (st', true) ∧
      st'.pageTables = PT.s1State.pageTables ∧
      ∃ m', AArch64MMU.performTranslation st'.mem 16384
        (((0x12345 <<< 14) % 2 ^ 48) >>> 14) false =
        some (true, (0xABCDE <<< 14) >>> 14, m') :=
  driver_walker_roundtrip PT.s1State 1 16384 (0x12345 <<< 14) (0xABCDE <<< 14) false
    ⟨[(16384, 0)], by unfold PT.InvAlloc; refine ⟨by decide, by decide, by decide,
      by decide, by decide⟩, by decide⟩ (by decide) (by decide)
